import Mathlib

/-!
# FunctionArgumentTransformer

A shallow embedding of `src/FunctionArgumentTransformer.cpp`, an LLVM module pass that
clones the callee of every call site passing a `ConstantInt` argument and substitutes
the constant into the clone.

The host IR (module, functions, basic blocks, instructions, values, use lists) is
modelled by plain data:

* a module is the list of its functions, and a `Function *` is the index of the
  function in that list (the pass only ever appends to the list, so indices are stable);
* a function body refers to its own formal parameters, instruction results and basic
  blocks by position (`Value.arg i`, `Value.inst k`, `Value.block b`), so the value map
  built by `CloneFunction` is the identity on these names and the uses of the `i`-th
  `Argument` of a function are exactly the operands `Value.arg i` of its body;
* null pointers are `Option.none`; dereferencing one, or reading past the end of an
  argument list, is a `Fault`.
-/

namespace FunctionArgumentTransformer

/-- A `Function *`: the index of the function in the function list of the module. -/
abbrev FuncRef := Nat

/-- An `llvm::Value` as far as the pass can tell values apart. -/
inductive Value where
  /-- A `ConstantInt` of the given bit width and signed value. -/
  | constInt (width : Nat) (val : Int)
  /-- Any other `Constant` that is not a function (floating point, null, undef, global data). -/
  | constOther (tag : Nat)
  /-- A `Function` used as a value (a `GlobalValue`, hence a `Constant`). -/
  | func (f : FuncRef)
  /-- The formal parameter number `idx` of the enclosing function. -/
  | arg (idx : Nat)
  /-- The result of an instruction of the enclosing function. -/
  | inst (id : Nat)
  /-- A basic block of the enclosing function (a branch target). -/
  | block (idx : Nat)
  deriving DecidableEq, Repr

/-- A `CallInst`: the called value and the argument operands. -/
structure CallInst where
  callee : Value
  args : List Value
  deriving DecidableEq, Repr

/-- An instruction is a call or anything else (an opcode with its operands). -/
inductive Instruction where
  | call (ci : CallInst)
  | other (opcode : Nat) (operands : List Value)
  deriving DecidableEq, Repr

abbrev BasicBlock := List Instruction

/-- A function: name, formal parameters (one type tag each), basic blocks. -/
structure Function where
  name : String
  params : List Nat
  blocks : List BasicBlock
  deriving DecidableEq, Repr

/-- The function list of a module (`M.getFunctionList()`). -/
abbrev Module := List Function

/-- What the pass cannot recover from (undefined behaviour in the C++). -/
inductive Fault where
  /-- `calledFunction->...` with `calledFunction == nullptr`. -/
  | nullFunction
  /-- A `Function *` that is not a function of the module. -/
  | danglingFunction
  /-- `itr->...` with the argument iterator at or past `arg_end()`. -/
  | argOutOfRange
  deriving DecidableEq, Repr

/-- The members of the pass object, the module it runs on and what it wrote to `errs()`.
`clonedFunctions` is the `std::set<Function *>`, `functionMappings` the
`std::map<std::string, int>` (an association list with one entry per key; the `int` is
an integer in the 32-bit two's complement range, see `wrapInt`). -/
structure PassState where
  M : Module
  clonedFunctions : List FuncRef
  functionMappings : List (String × Int)
  errs : List String
  deriving DecidableEq, Repr

/-! ## The IR operations the pass calls -/

/-- The test `isa<Constant>(v)`. -/
def isaConstant : Value → Bool
  | .constInt _ _ => true
  | .constOther _ => true
  | .func _ => true
  | _ => false

/-- The cast `dyn_cast<ConstantInt>(v)`: the value itself when it is a `ConstantInt`, null otherwise. -/
def dynCastConstantInt : Value → Option Value
  | .constInt w c => some (.constInt w c)
  | _ => none

/-- The call `CallInst::getCalledFunction`: the callee when it is a function, null otherwise. -/
def getCalledFunction (call_inst : CallInst) : Option FuncRef :=
  match call_inst.callee with
  | .func f => some f
  | _ => none

/-- The call `CallInst::setCalledFunction`. -/
def setCalledFunction (call_inst : CallInst) (F : FuncRef) : CallInst :=
  { call_inst with callee := .func F }

/-- All operands of an instruction, the called value first for a call. -/
def Instruction.operands : Instruction → List Value
  | .call ci => ci.callee :: ci.args
  | .other _ ops => ops

/-- Apply a value substitution to every operand of an instruction. -/
def Instruction.mapOperands (σ : Value → Value) : Instruction → Instruction
  | .call ci => .call { callee := σ ci.callee, args := ci.args.map σ }
  | .other op ops => .other op (ops.map σ)

/-- All operands of the body of a function, in block and instruction order. -/
def Function.operands (F : Function) : List Value :=
  (F.blocks.map fun BB => (BB.map Instruction.operands).flatten).flatten

/-- Apply a value substitution to every operand of the body of a function. -/
def Function.mapOperands (σ : Value → Value) (F : Function) : Function :=
  { F with blocks := F.blocks.map fun BB => BB.map (Instruction.mapOperands σ) }

/-- The call `old->replaceAllUsesWith(new)` for a value `old` owned by `F`: every operand of
the body of `F` that is `old` becomes `new`. -/
def replaceAllUsesWith (F : Function) (old new : Value) : Function :=
  F.mapOperands fun v => if v = old then new else v

/-- The value map `VMap` that `CloneFunction` builds: a parameter, instruction or block of
the original maps to the one at the same position of the copy; constants and functions
(the original included) map to themselves. -/
def CloneFunction.remap : Value → Value
  | .arg i => .arg i
  | .inst k => .inst k
  | .block b => .block b
  | v => v

/-- The call `CloneFunction(F, VMap, false)`: a detached copy with the same name and
parameters, whose body is the body of `F` with every operand remapped through `VMap`. -/
def CloneFunction (F : Function) : Function :=
  { name := F.name, params := F.params,
    blocks := (F.mapOperands CloneFunction.remap).blocks }

/-- The call `F->setName(newName)`. -/
def setName (F : Function) (newName : String) : Function :=
  { F with name := newName }

/-- The lookup `functionMappings.find(k)`: the mapped value, `none` for `end()`. -/
def mapFind (m : List (String × Int)) (k : String) : Option Int :=
  match m with
  | [] => none
  | (k1, v1) :: rest => if k1 = k then some v1 else mapFind rest k

/-- The assignment `functionMappings[k] = v`. -/
def mapAssign (m : List (String × Int)) (k : String) (v : Int) : List (String × Int) :=
  match m with
  | [] => [(k, v)]
  | (k1, v1) :: rest => if k1 = k then (k, v) :: rest else (k1, v1) :: mapAssign rest k v

/-- The instruction at block `bi`, position `ii` of function `fi`, if there is one. -/
def getInstruction (M : Module) (fi bi ii : Nat) : Option Instruction :=
  match M[fi]? with
  | none => none
  | some F =>
    match F.blocks[bi]? with
    | none => none
    | some BB => BB[ii]?

/-- Overwrite the instruction at block `bi`, position `ii` of function `fi`. -/
def setInstruction (M : Module) (fi bi ii : Nat) (I : Instruction) : Module :=
  M.modify (fun F => { F with blocks := F.blocks.modify (fun BB => BB.set ii I) bi }) fi

/-! ## The pass -/

/-- Source lines 34-39. -/
def IsConstantArgument (arg_value : Value) : Bool :=
  if isaConstant arg_value && (dynCastConstantInt arg_value).isSome then true else false

/-- The loop of `NeedsToBeCloned` over the argument operands not yet inspected. -/
def NeedsToBeCloned.loop (clonedFunctions : List FuncRef) (calledFunction : Option FuncRef) :
    List Value → Bool
  | [] => false
  | arg_value :: rest =>
    if IsConstantArgument arg_value then
      match calledFunction with
      | none => true
      | some g => !(clonedFunctions.contains g)
    else NeedsToBeCloned.loop clonedFunctions calledFunction rest

/-- Source lines 41-55. The registry only ever holds clones, so looking up a null
`calledFunction` finds nothing. -/
def NeedsToBeCloned (clonedFunctions : List FuncRef) (call_inst : CallInst)
    (calledFunction : Option FuncRef) : Bool :=
  NeedsToBeCloned.loop clonedFunctions calledFunction call_inst.args

/-- The value an `int` holds after an arithmetic result `z`: the 32-bit two's complement
wrap-around, so that `INT_MAX + 1` is `INT_MIN`. -/
def wrapInt (z : Int) : Int :=
  (z + 2147483648) % 4294967296 - 2147483648

/-- Source lines 57-71: the new name and the updated counter map. The increment `++` of
the `int` counter wraps around. -/
def GenerateClonedFunctionName (functionMappings : List (String × Int))
    (calledFunction : Function) : String × List (String × Int) :=
  let calledFunctionName := calledFunction.name
  let fm :=
    match mapFind functionMappings calledFunctionName with
    | none => mapAssign functionMappings calledFunctionName 1
    | some c => mapAssign functionMappings calledFunctionName (wrapInt (c + 1))
  (calledFunctionName ++ toString ((mapFind fm calledFunctionName).getD 0), fm)

/-- Source lines 73-82: clone, rename, append to the function list of the module; returns
the clone (its index) and the new state. The appended function carries the name given to
`setName` as it is: a symbol table that renames a function on a name clash is not part of
the model. -/
def SetupClone (st : PassState) (calledFunction : Option FuncRef) :
    Except Fault (FuncRef × PassState) :=
  match calledFunction with
  | none => .error .nullFunction
  | some g =>
    match st.M[g]? with
    | none => .error .danglingFunction
    | some G =>
      let clonedFunction := CloneFunction G
      let r := GenerateClonedFunctionName st.functionMappings G
      .ok (st.M.length,
        { st with M := st.M ++ [setName clonedFunction r.1], functionMappings := r.2 })

/-- Source lines 84-87. -/
def ReplaceFunctionCall (call_inst : CallInst) (clonedFunction : FuncRef) : CallInst :=
  setCalledFunction call_inst clonedFunction

/-- The loop of `ReplaceArgumentsWithConstants`: the argument operands from position `i` on,
with the argument iterator `itr` at position `i` of the parameters of the clone. -/
def ReplaceArgumentsWithConstants.loop :
    List Value → Nat → Function → Except Fault Function
  | [], _, clonedFunction => .ok clonedFunction
  | arg_value :: rest, i, clonedFunction =>
    match dynCastConstantInt arg_value with
    | some CI =>
      if i < clonedFunction.params.length then
        ReplaceArgumentsWithConstants.loop rest (i + 1)
          (replaceAllUsesWith clonedFunction (.arg i) CI)
      else .error .argOutOfRange
    | none => ReplaceArgumentsWithConstants.loop rest (i + 1) clonedFunction

/-- Source lines 89-102. The call is an instruction of the caller, never of the clone, so
the substitution in the clone leaves its argument operands alone and they are read from
the call as it is on entry. -/
def ReplaceArgumentsWithConstants (call_inst : CallInst) (clonedFunction : Function) :
    Except Fault Function :=
  ReplaceArgumentsWithConstants.loop call_inst.args 0 clonedFunction

/-- The name `calledFunction->getName()` as the driver prints it. -/
def getName (M : Module) (calledFunction : Option FuncRef) : Except Fault String :=
  match calledFunction with
  | none => .error .nullFunction
  | some g =>
    match M[g]? with
    | none => .error .danglingFunction
    | some G => .ok G.name

/-- Source lines 116-137, the body of the innermost loop of `runOnModule`, for the
instruction `I` found at block `bi`, position `ii` of function `fi`. -/
def visitInstruction (st : PassState) (fi bi ii : Nat) (I : Instruction) :
    Except Fault PassState :=
  match I with
  | .other _ _ => .ok st
  | .call call_inst =>
    let calledFunction := getCalledFunction call_inst
    if NeedsToBeCloned st.clonedFunctions call_inst calledFunction then
      match getName st.M calledFunction with
      | .error e => .error e
      | .ok nm =>
        let st1 := { st with errs := st.errs ++ ["Need to be cloned: " ++ nm ++ "\n"] }
        match SetupClone st1 calledFunction with
        | .error e => .error e
        | .ok (clonedFunction, st2) =>
          let call_inst2 := ReplaceFunctionCall call_inst clonedFunction
          let M3 := setInstruction st2.M fi bi ii (.call call_inst2)
          match M3[clonedFunction]? with
          | none => .error .danglingFunction
          | some C =>
            match ReplaceArgumentsWithConstants call_inst2 C with
            | .error e => .error e
            | .ok C2 =>
              .ok { st2 with M := M3.set clonedFunction C2,
                             clonedFunctions := st2.clonedFunctions.insert clonedFunction }
    else
      match getName st.M calledFunction with
      | .error e => .error e
      | .ok nm => .ok { st with errs := st.errs ++ ["Doesn't need to be cloned: " ++ nm ++ "\n"] }

/-- A point of the run of `runOnModule`: the state and the three loop iterators. -/
structure Config where
  st : PassState
  FuncIt : Nat
  BBIT : Nat
  IIT : Nat
  deriving DecidableEq, Repr

/-- What one step of the three nested loops of `runOnModule` does. -/
inductive StepResult where
  /-- The outer loop has reached the end of the function list. -/
  | done (st : PassState)
  /-- The run goes on from the given point. -/
  | next (c : Config)
  | fault (e : Fault)
  deriving DecidableEq, Repr

/-- One step of the loops of source lines 106-140: leave a loop whose iterator is at its
end, or else visit the instruction under the iterators and advance `IIT`. The ends are
read from the current state at every step, as the loop conditions do. -/
def driverStep (c : Config) : StepResult :=
  match c.st.M[c.FuncIt]? with
  | none => .done c.st
  | some F =>
    match F.blocks[c.BBIT]? with
    | none => .next { c with FuncIt := c.FuncIt + 1, BBIT := 0, IIT := 0 }
    | some BB =>
      match BB[c.IIT]? with
      | none => .next { c with BBIT := c.BBIT + 1, IIT := 0 }
      | some I =>
        match visitInstruction c.st c.FuncIt c.BBIT c.IIT I with
        | .error e => .fault e
        | .ok st2 => .next { c with st := st2, IIT := c.IIT + 1 }

/-- How a run bounded by a number of steps ends. -/
inductive Outcome where
  /-- The pass returned the given value and left the given state. -/
  | finished (ret : Bool) (st : PassState)
  /-- The step bound was reached at the given point, the loops still running. -/
  | running (c : Config)
  | fault (e : Fault)
  deriving DecidableEq, Repr

/-- At most `fuel` steps of the loops from the point `c`; the pass returns `false`
(source line 142) when the outer loop ends. -/
def runFrom : Nat → Config → Outcome
  | 0, c => .running c
  | fuel + 1, c =>
    match driverStep c with
    | .done st => .finished false st
    | .fault e => .fault e
    | .next c2 => runFrom fuel c2

/-- The point reached from `c` by `n` further steps of the loops, when none of them ends
the run or faults. -/
def stepsFrom : Nat → Config → Option Config
  | 0, c => some c
  | n + 1, c =>
    match driverStep c with
    | .next c2 => stepsFrom n c2
    | _ => none

/-- The instruction at `(fi, bi, ii)` comes before the iterators of `c` in the order of the
three nested loops, that is, the loops have passed it. -/
def Config.passed (c : Config) (fi bi ii : Nat) : Prop :=
  fi < c.FuncIt ∨ (fi = c.FuncIt ∧ (bi < c.BBIT ∨ (bi = c.BBIT ∧ ii < c.IIT)))

/-- The visit of `I` in a state with function list `M` and registry `reg` specialises
nothing and does not fault: `I` is not a call, or it is a call with a direct target in `M`
for which the policy answers false. -/
def quiet (M : Module) (reg : List FuncRef) : Instruction → Bool
  | .other _ _ => true
  | .call ci =>
    match getCalledFunction ci with
    | none => false
    | some g => decide (g < M.length) && !NeedsToBeCloned reg ci (some g)

/-- Two states with the same function list, registry and name counters (they may differ
in what was written to `errs()`). -/
def PassState.same (a b : PassState) : Prop :=
  a.M = b.M ∧ a.clonedFunctions = b.clonedFunctions ∧ a.functionMappings = b.functionMappings

/-- The instruction is a call. -/
def Instruction.isCall : Instruction → Bool
  | .call _ => true
  | .other _ _ => false

/-- The start of the run of a pass object on `M`: both members empty, iterators at `begin()`. -/
def initial (M : Module) : Config :=
  { st := { M := M, clonedFunctions := [], functionMappings := [], errs := [] },
    FuncIt := 0, BBIT := 0, IIT := 0 }

/-- Source lines 104-143, bounded by `fuel` steps, on a freshly constructed pass object. -/
def runOnModule (fuel : Nat) (M : Module) : Outcome :=
  runFrom fuel (initial M)

/-! ## Auxiliary definitions for the statements -/

/-- The value an operand `v` of the clone ends up as when `ReplaceArgumentsWithConstants.loop`
runs over the argument operands `args` with the argument iterator starting at position `i`:
the parameter `i + j` becomes `args[j]` when that is a `ConstantInt`. -/
def substituted (args : List Value) (i : Nat) (v : Value) : Value :=
  match v with
  | .arg n =>
    if i ≤ n then
      match (args[n - i]?).bind dynCastConstantInt with
      | some CI => CI
      | none => .arg n
    else .arg n
  | v => v

/-- The value of the counter of the name `k`: `0` while the map has no entry for it. -/
def counterOf (fm : List (String × Int)) (k : String) : Int :=
  (mapFind fm k).getD 0

/-- The names of the functions of a module, in order. -/
def names (M : Module) : List String :=
  M.map Function.name

/-- What a run from the input module `M0` keeps true of the function list, the clone
registry and the name counters while no counter has wrapped around and no appended function
bears the name of a function of `M0`: the names are those of `M0` followed by the names of
the appended functions, these being exactly the names of functions of `M0` followed by a
positive number up to the counter of that name; every appended function is in the registry;
the names are pairwise distinct; every counter lies between `0` and the number of appended
functions. -/
structure NamesInv (M0 M : Module) (clonedFunctions : List FuncRef)
    (functionMappings : List (String × Int)) : Prop where
  grows : M0.length ≤ M.length
  split : ∃ cl : List String, names M = names M0 ++ cl ∧
    (∀ nm ∈ cl, ∃ G ∈ M0, ∃ k : Nat, 1 ≤ k ∧ (k : Int) ≤ counterOf functionMappings G.name ∧
      nm = G.name ++ Nat.repr k) ∧
    ∀ G ∈ M0, ∀ k : Nat, 1 ≤ k → (k : Int) ≤ counterOf functionMappings G.name →
      G.name ++ Nat.repr k ∈ cl
  registered : ∀ i, M0.length ≤ i → i < M.length → i ∈ clonedFunctions
  nodup : (names M).Nodup
  nonneg : ∀ s, 0 ≤ counterOf functionMappings s
  upper : ∀ s, counterOf functionMappings s ≤ ((M.length - M0.length : Nat) : Int)

/-! ## Example programs -/

/-- A callee `f(a, b)` whose single block uses both parameters and calls nothing. -/
def exF : Function :=
  { name := "f", params := [32, 32],
    blocks := [[.other 1 [.arg 0, .arg 1], .other 2 [.inst 0]]] }

/-- A caller with the call sites `f(5, x)` and `f(7, y)`, `x` a parameter and `y` an
instruction result. -/
def exMain : Function :=
  { name := "main", params := [32],
    blocks := [[.call { callee := .func 0, args := [.constInt 32 5, .arg 0] },
                .call { callee := .func 0, args := [.constInt 32 7, .inst 0] },
                .other 2 []]] }

/-- A function with one call through its parameter (an indirect call), passing a constant. -/
def exIndirect : Module :=
  [ { name := "main", params := [64],
      blocks := [[.call { callee := .arg 0, args := [.constInt 32 1] }, .other 2 []]] } ]

/-- A function with one call through its parameter (an indirect call), passing no constant. -/
def exIndirectPlain : Module :=
  [ { name := "main", params := [64, 32],
      blocks := [[.call { callee := .arg 0, args := [.arg 1] }, .other 2 []]] } ]

/-- A function whose only call is to itself with a constant. -/
def exRec : Module :=
  [ { name := "g", params := [32],
      blocks := [[.call { callee := .func 0, args := [.constInt 32 1] }]] } ]

/-- The point of the run on `exRec` at which the driver reaches the second clone, whose
call targets the first clone. -/
def exRecConfig : Config :=
  (stepsFrom 6 (initial exRec)).getD (initial exRec)

/-- The body of a function `g(a)` that calls `g(a)` and returns. -/
def exLoopBody : List BasicBlock :=
  [[.call { callee := .func 0, args := [.arg 0] }, .other 0 []]]

/-- The body of `g(a)` with the constant `5` in place of `a`. -/
def exLoopBody5 : List BasicBlock :=
  [[.call { callee := .func 0, args := [.constInt 32 5] }, .other 0 []]]

/-- The call `g(5)`. -/
def exLoopCall : CallInst :=
  { callee := .func 0, args := [.constInt 32 5] }

/-- The recursive function `g(a)`. -/
def exLoopG : Function :=
  { name := "g", params := [32], blocks := exLoopBody }

/-- A recursive function `g(a)` that passes its parameter on to itself, and a caller of
`g(5)`. -/
def exLoop : Module :=
  [ exLoopG, { name := "main", params := [], blocks := [[.call exLoopCall, .other 0 []]] } ]

/-- The point of the run on `exLoop` at which the driver reaches the first clone. -/
def exLoopStart : Config :=
  (stepsFrom 8 (initial exLoop)).getD (initial exLoop)

/-- Every call of the module has a direct target in the module, with as many argument
operands as the target has formal parameters. -/
def wellFormed (M : Module) : Bool :=
  M.all fun F => F.blocks.all fun BB => BB.all fun I =>
    match I with
    | .other _ _ => true
    | .call ci =>
      match getCalledFunction ci with
      | none => false
      | some g =>
        match M[g]? with
        | none => false
        | some G => ci.args.length == G.params.length

/-- What holds each time the run on `exLoop` reaches a new function: it is the last one of
the list, a copy of `g` with `5` for the parameter; `g` itself is the first function, as
in the input, and is not in the registry. -/
def LoopInv (c : Config) : Prop :=
  c.FuncIt + 1 = c.st.M.length ∧ 2 ≤ c.FuncIt ∧ c.BBIT = 0 ∧ c.IIT = 0 ∧
  0 ∉ c.st.clonedFunctions ∧
  c.st.M[0]? = some exLoopG ∧
  ∃ nm, c.st.M[c.FuncIt]? = some { name := nm, params := [32], blocks := exLoopBody5 }

/-- The callee of the scenario: `f(a, b)` with the given parameter types and body. -/
def scenarioF (ta tb : Nat) (body : List BasicBlock) : Function :=
  { name := "f", params := [ta, tb], blocks := body }

/-- The function named `nm` that is `f(a, b)` with every use of `a` replaced by the
integer constant `c` of width `w`. -/
def scenarioClone (ta tb : Nat) (body : List BasicBlock) (nm : String) (w : Nat) (c : Int) :
    Function :=
  { name := nm, params := [ta, tb],
    blocks := (replaceAllUsesWith (scenarioF ta tb body) (.arg 0) (.constInt w c)).blocks }

/-- The state in which the driver finds the first call site of `exMain`. -/
def exConfig : Config :=
  { st := (initial [exF, exMain]).st, FuncIt := 1, BBIT := 0, IIT := 0 }

/-- The state after the step of the driver from `exConfig`. -/
def exConfigNext : Config :=
  match driverStep exConfig with
  | .next c => c
  | _ => exConfig

/-- A callee with one formal parameter, as the clone of a variadic function is. -/
def exVariadic : Function :=
  { name := "v1", params := [32], blocks := [[.other 1 [.arg 0]]] }

/-- A call of the variadic function with an integer constant in the second, extra
position. -/
def exVariadicCall : CallInst :=
  { callee := .func 0, args := [.arg 0, .constInt 32 7] }

/-- The step of the driver from `c` takes the cloning branch: the instruction under the
iterators is a call for which `NeedsToBeCloned` answers true. -/
def Config.specialises (c : Config) : Bool :=
  match getInstruction c.st.M c.FuncIt c.BBIT c.IIT with
  | some (.call ci) => NeedsToBeCloned c.st.clonedFunctions ci (getCalledFunction ci)
  | _ => false

/-- Two functions with as many formal parameters, as many basic blocks, and as many
instructions in each corresponding block. -/
def sameStructure (C G : Function) : Prop :=
  C.params.length = G.params.length ∧ C.blocks.map List.length = G.blocks.map List.length

/-- What identifies a function of the list across a run, its body apart: name, formal
parameters, and the number of instructions of each basic block. -/
def signature (F : Function) : String × List Nat × List Nat :=
  (F.name, F.params, F.blocks.map List.length)

/-- The state three steps of the driver after `exConfig`: both call sites of `exMain` have
been specialised. -/
def exConfigLater : Config :=
  (stepsFrom 3 exConfig).getD exConfig

/-- No call instruction of the module has an integer constant among its argument
operands. -/
def noConstantArgument (M : Module) : Prop :=
  ∀ F ∈ M, ∀ BB ∈ F.blocks, ∀ ci : CallInst, Instruction.call ci ∈ BB →
    ∀ v ∈ ci.args, ∀ w c, v ≠ Value.constInt w c

/-- Every call instruction of the module calls a function of the module directly. -/
def directCalls (M : Module) : Prop :=
  ∀ F ∈ M, ∀ BB ∈ F.blocks, ∀ ci : CallInst, Instruction.call ci ∈ BB →
    ∃ g, getCalledFunction ci = some g ∧ g < M.length

/-- A module with the single call site `f(x, y)`, `x` and `y` parameters of the caller. -/
def exPlain : Module :=
  [ exF,
    { name := "main", params := [32, 32],
      blocks := [[.call { callee := .func 0, args := [.arg 0, .arg 1] }, .other 2 []]] } ]

/-- The state after the first step of the run on `exRec`, which specialises the call of
`g` inside `g`. -/
def exRecNext : Config :=
  match driverStep (initial exRec) with
  | .next c => c
  | _ => initial exRec

/-- The function `g` of `exRec`. -/
def exRecG : Function :=
  { name := "g", params := [32],
    blocks := [[.call { callee := .func 0, args := [.constInt 32 1] }]] }

/-- The function `g` of `exRec` with its call retargeted to the function at index 1. -/
def exRecGRetargeted : Function :=
  { name := "g", params := [32],
    blocks := [[.call { callee := .func 1, args := [.constInt 32 1] }]] }

/-! ## The IR operations -/

theorem Instruction.operands_map (σ : Value → Value) (I : Instruction) :
    (I.mapOperands σ).operands = I.operands.map σ := by
  cases I <;> simp [Instruction.mapOperands, Instruction.operands]

theorem Function.operands_mapOperands (σ : Value → Value) (F : Function) :
    (F.mapOperands σ).operands = F.operands.map σ := by
  simp [Function.mapOperands, Function.operands, List.map_flatten, List.map_map,
    Function.comp_def, Instruction.operands_map]

theorem Instruction.mapOperands_twice (σ τ : Value → Value) (I : Instruction) :
    (I.mapOperands σ).mapOperands τ = I.mapOperands (fun v => τ (σ v)) := by
  cases I <;> simp [Instruction.mapOperands, Function.comp_def]

theorem Function.mapOperands_comp (σ τ : Value → Value) (F : Function) :
    (F.mapOperands σ).mapOperands τ = F.mapOperands (fun v => τ (σ v)) := by
  simp [Function.mapOperands, List.map_map, Function.comp_def, Instruction.mapOperands_twice]

theorem Instruction.mapOperands_self (I : Instruction) : I.mapOperands (fun v => v) = I := by
  cases I <;> simp [Instruction.mapOperands]

theorem Function.mapOperands_id (F : Function) : F.mapOperands (fun v => v) = F := by
  have h : (Instruction.mapOperands fun v => v) = id := funext Instruction.mapOperands_self
  simp [Function.mapOperands, h]

theorem CloneFunction.remap_eq (v : Value) : CloneFunction.remap v = v := by
  cases v <;> rfl

theorem CloneFunction_eq (F : Function) : CloneFunction F = F := by
  have h : CloneFunction.remap = fun v => v := funext CloneFunction.remap_eq
  simp [CloneFunction, h, Function.mapOperands_id]

theorem dynCastConstantInt_eq_some {v CI : Value} (h : dynCastConstantInt v = some CI) :
    CI = v ∧ ∃ w c, v = .constInt w c := by
  cases v <;> simp [dynCastConstantInt] at h
  subst h
  exact ⟨rfl, _, _, rfl⟩

theorem dynCastConstantInt_eq_none {v : Value} :
    dynCastConstantInt v = none ↔ ∀ w c, v ≠ .constInt w c := by
  cases v <;> simp [dynCastConstantInt]

theorem IsConstantArgument_iff (v : Value) :
    IsConstantArgument v = true ↔ ∃ w c, v = .constInt w c := by
  cases v <;> simp [IsConstantArgument, isaConstant, dynCastConstantInt]

/-! ## C1: the specialisation policy -/

theorem NeedsToBeCloned.loop_iff (clonedFunctions : List FuncRef) (g : FuncRef)
    (args : List Value) :
    NeedsToBeCloned.loop clonedFunctions (some g) args = true ↔
      (∃ v ∈ args, ∃ w c, v = Value.constInt w c) ∧ g ∉ clonedFunctions := by
  induction args with
  | nil => simp [NeedsToBeCloned.loop]
  | cons a rest ih =>
    by_cases ha : IsConstantArgument a = true
    · have ha2 := (IsConstantArgument_iff a).1 ha
      simp only [NeedsToBeCloned.loop, ha, if_true]
      constructor
      · intro h
        refine ⟨⟨a, List.mem_cons_self _ _, ha2⟩, ?_⟩
        simpa using h
      · intro h
        simpa using h.2
    · have ha2 : ¬ ∃ w c, a = Value.constInt w c := fun h => ha ((IsConstantArgument_iff a).2 h)
      have ha3 : IsConstantArgument a = false := by simpa using ha
      rw [NeedsToBeCloned.loop, ha3, if_neg (by simp), ih]
      constructor
      · rintro ⟨⟨v, hv, hc⟩, hg⟩
        exact ⟨⟨v, List.mem_cons_of_mem _ hv, hc⟩, hg⟩
      · rintro ⟨⟨v, hv, hc⟩, hg⟩
        rcases List.mem_cons.1 hv with rfl | hv2
        · exact absurd hc ha2
        · exact ⟨⟨v, hv2, hc⟩, hg⟩

/-- C1: `NeedsToBeCloned` returns true exactly when some argument operand of the call, at
whatever position, is an integer constant and the target function is not in the clone
registry; so it returns false when no argument is an integer constant. -/
theorem C1_NeedsToBeCloned_iff (clonedFunctions : List FuncRef) (call_inst : CallInst)
    (calledFunction : FuncRef) :
    NeedsToBeCloned clonedFunctions call_inst (some calledFunction) = true ↔
      (∃ v ∈ call_inst.args, ∃ w c, v = Value.constInt w c) ∧
        calledFunction ∉ clonedFunctions :=
  NeedsToBeCloned.loop_iff clonedFunctions calledFunction call_inst.args

/-! ## C2, C3: the argument substituter -/

theorem substituted_cons_some (a CI : Value) (rest : List Value) (i : Nat)
    (h : dynCastConstantInt a = some CI) (v : Value) :
    substituted rest (i + 1) (if v = Value.arg i then CI else v) = substituted (a :: rest) i v := by
  obtain ⟨rfl, w, c, rfl⟩ := dynCastConstantInt_eq_some h
  cases v with
  | arg n =>
    by_cases hn : n = i
    · subst hn
      simp [substituted, dynCastConstantInt]
    · have h1 : ¬ (Value.arg n = Value.arg i) := by simpa using hn
      rw [if_neg h1]
      by_cases hle : i + 1 ≤ n
      · have h2 : i ≤ n := by omega
        have h3 : n - i = (n - (i + 1)) + 1 := by omega
        simp [substituted, hle, h2, h3]
      · have h2 : ¬ i ≤ n := by omega
        simp [substituted, hle, h2]
  | _ => simp [substituted]

theorem substituted_cons_none (a : Value) (rest : List Value) (i : Nat)
    (h : dynCastConstantInt a = none) (v : Value) :
    substituted rest (i + 1) v = substituted (a :: rest) i v := by
  cases v with
  | arg n =>
    by_cases hn : n = i
    · subst hn
      simp [substituted, h]
    · by_cases hle : i + 1 ≤ n
      · have h2 : i ≤ n := by omega
        have h3 : n - i = (n - (i + 1)) + 1 := by omega
        simp [substituted, hle, h2, h3]
      · have h2 : ¬ i ≤ n := by omega
        simp [substituted, hle, h2]
  | _ => simp [substituted]

/-- With a parameter for every argument operand, the loop never faults and amounts to one
simultaneous substitution on the body of the clone. -/
theorem ReplaceArgumentsWithConstants.loop_eq (args : List Value) (i : Nat) (F : Function)
    (h : i + args.length ≤ F.params.length) :
    ReplaceArgumentsWithConstants.loop args i F = .ok (F.mapOperands (substituted args i)) := by
  induction args generalizing i F with
  | nil =>
    have hid : substituted [] i = fun v => v := by
      funext v
      cases v <;> simp [substituted]
    simp [ReplaceArgumentsWithConstants.loop, hid, Function.mapOperands_id]
  | cons a rest ih =>
    simp only [List.length_cons] at h
    cases hd : dynCastConstantInt a with
    | none =>
      have hf : substituted rest (i + 1) = substituted (a :: rest) i :=
        funext (substituted_cons_none a rest i hd)
      simp only [ReplaceArgumentsWithConstants.loop, hd]
      rw [ih (i + 1) F (by omega), hf]
    | some CI =>
      have hlt : i < F.params.length := by omega
      have hf : (fun v => substituted rest (i + 1) (if v = Value.arg i then CI else v))
          = substituted (a :: rest) i := funext (substituted_cons_some a CI rest i hd)
      simp only [ReplaceArgumentsWithConstants.loop, hd, hlt, if_true]
      rw [ih (i + 1) _ (by simpa [replaceAllUsesWith, Function.mapOperands] using (by omega : i + 1 + rest.length ≤ F.params.length)),
        replaceAllUsesWith, Function.mapOperands_comp, hf]

theorem substituted_zero_of_const (args : List Value) (i w : Nat) (c : Int)
    (h : args[i]? = some (.constInt w c)) :
    substituted args 0 (.arg i) = .constInt w c := by
  simp [substituted, h, dynCastConstantInt]

theorem substituted_ne_arg_of_const (args : List Value) (i w : Nat) (c : Int)
    (h : args[i]? = some (.constInt w c)) (v : Value) :
    substituted args 0 v ≠ .arg i := by
  cases v with
  | arg n =>
    simp only [substituted, Nat.zero_le, if_true, Nat.sub_zero]
    cases hb : (args[n]?).bind dynCastConstantInt with
    | none =>
      simp only [ne_eq, Value.arg.injEq]
      rintro rfl
      rw [h] at hb
      simp [dynCastConstantInt] at hb
    | some CI =>
      obtain ⟨a, -, ha⟩ := Option.bind_eq_some.1 hb
      obtain ⟨-, w2, c2, rfl⟩ := dynCastConstantInt_eq_some ha
      simp [dynCastConstantInt] at ha
      subst ha
      simp
  | _ => simp [substituted]

theorem substituted_eq_arg_iff (args : List Value) (j : Nat)
    (h : ∀ w c, args[j]? ≠ some (.constInt w c)) (v : Value) :
    substituted args 0 v = .arg j ↔ v = .arg j := by
  cases v with
  | arg n =>
    simp only [substituted, Nat.zero_le, if_true, Nat.sub_zero]
    cases hb : (args[n]?).bind dynCastConstantInt with
    | none => simp
    | some CI =>
      obtain ⟨a, han, ha⟩ := Option.bind_eq_some.1 hb
      obtain ⟨rfl, w2, c2, rfl⟩ := dynCastConstantInt_eq_some ha
      simp only [Value.arg.injEq, false_iff]
      constructor
      · intro h2
        exact absurd h2 (by simp)
      · rintro rfl
        exact absurd han (h w2 c2)
  | _ => simp [substituted]

/-- C2: when the clone has as many formal parameters as the call has argument operands,
`ReplaceArgumentsWithConstants` returns a function with the same name, the same parameter
list and as many operands, in which, for every position `i` where the call passes an
integer constant `c`, no operand is the parameter `i` and every operand that was the
parameter `i` is `c`. -/
theorem C2_constant_positions_substituted (call_inst : CallInst) (clonedFunction : Function)
    (hlen : clonedFunction.params.length = call_inst.args.length) :
    ∃ C2 : Function, ReplaceArgumentsWithConstants call_inst clonedFunction = .ok C2 ∧
      C2.name = clonedFunction.name ∧ C2.params = clonedFunction.params ∧
      C2.operands.length = clonedFunction.operands.length ∧
      ∀ (i w : Nat) (c : Int), call_inst.args[i]? = some (.constInt w c) →
        Value.arg i ∉ C2.operands ∧
        ∀ k : Nat, clonedFunction.operands[k]? = some (.arg i) →
          C2.operands[k]? = some (.constInt w c) := by
  refine ⟨_, ReplaceArgumentsWithConstants.loop_eq call_inst.args 0 clonedFunction (by omega),
    rfl, rfl, ?_, ?_⟩
  · simp [Function.operands_mapOperands]
  · intro i w c hi
    rw [Function.operands_mapOperands]
    constructor
    · intro hmem
      obtain ⟨v, -, hv⟩ := List.mem_map.1 hmem
      exact substituted_ne_arg_of_const call_inst.args i w c hi v hv
    · intro k hk
      simp only [List.getElem?_map] at hk ⊢
      rw [hk]
      simp [substituted_zero_of_const call_inst.args i w c (by simpa using hi)]

/-- The clone of `exF` for the call `f(5, x)`: the first parameter is substituted. -/
theorem C2_constant_positions_substituted_witness :
    exF.params.length = (CallInst.mk (.func 0) [.constInt 32 5, .arg 0]).args.length ∧
    ∃ C2 : Function,
      ReplaceArgumentsWithConstants (CallInst.mk (.func 0) [.constInt 32 5, .arg 0]) exF = .ok C2 ∧
      C2.name = exF.name ∧ C2.params = exF.params ∧
      C2.operands.length = exF.operands.length ∧
      ∀ (i w : Nat) (c : Int),
        (CallInst.mk (.func 0) [.constInt 32 5, .arg 0]).args[i]? = some (.constInt w c) →
        Value.arg i ∉ C2.operands ∧
        ∀ k : Nat, exF.operands[k]? = some (.arg i) →
          C2.operands[k]? = some (.constInt w c) :=
  ⟨by decide, C2_constant_positions_substituted _ exF (by decide)⟩

/-- C3: when the clone has as many formal parameters as the call has argument operands,
for every position `j` where the call passes something that is not an integer constant,
an operand of the clone is the parameter `j` after `ReplaceArgumentsWithConstants` exactly
when it was before: the uses of that parameter are the same operands. -/
theorem C3_other_positions_untouched (call_inst : CallInst) (clonedFunction : Function)
    (hlen : clonedFunction.params.length = call_inst.args.length) :
    ∃ C2 : Function, ReplaceArgumentsWithConstants call_inst clonedFunction = .ok C2 ∧
      ∀ (j : Nat) (a : Value), call_inst.args[j]? = some a →
        (∀ w c, a ≠ .constInt w c) →
        ∀ k : Nat, C2.operands[k]? = some (.arg j) ↔
          clonedFunction.operands[k]? = some (.arg j) := by
  refine ⟨_, ReplaceArgumentsWithConstants.loop_eq call_inst.args 0 clonedFunction (by omega), ?_⟩
  intro j a hj ha k
  have hj2 : ∀ w c, call_inst.args[j]? ≠ some (.constInt w c) := by
    intro w c h
    rw [hj] at h
    exact ha w c (Option.some.inj h)
  rw [Function.operands_mapOperands]
  simp only [List.getElem?_map]
  cases hk : clonedFunction.operands[k]? with
  | none => simp
  | some v => simpa using substituted_eq_arg_iff call_inst.args j hj2 v

/-- The clone of `exF` for the call `f(5, x)`: the uses of the second parameter stay. -/
theorem C3_other_positions_untouched_witness :
    exF.params.length = (CallInst.mk (.func 0) [.constInt 32 5, .arg 0]).args.length ∧
    ∃ C2 : Function,
      ReplaceArgumentsWithConstants (CallInst.mk (.func 0) [.constInt 32 5, .arg 0]) exF = .ok C2 ∧
      ∀ (j : Nat) (a : Value),
        (CallInst.mk (.func 0) [.constInt 32 5, .arg 0]).args[j]? = some a →
        (∀ w c, a ≠ .constInt w c) →
        ∀ k : Nat, C2.operands[k]? = some (.arg j) ↔ exF.operands[k]? = some (.arg j) :=
  ⟨by decide, C3_other_positions_untouched _ exF (by decide)⟩

/-! ## Reading and writing instructions of a module -/

theorem length_setInstruction (M : Module) (fi bi ii : Nat) (I : Instruction) :
    (setInstruction M fi bi ii I).length = M.length := by
  simp [setInstruction]

theorem getInstruction_lt {M : Module} {fi bi ii : Nat} {I : Instruction}
    (h : getInstruction M fi bi ii = some I) : fi < M.length := by
  by_contra hlt
  have hn : M[fi]? = none := List.getElem?_eq_none (by omega)
  simp [getInstruction, hn] at h

theorem getInstruction_append_left (M L : Module) (fi bi ii : Nat) (h : fi < M.length) :
    getInstruction (M ++ L) fi bi ii = getInstruction M fi bi ii := by
  simp [getInstruction, List.getElem?_append_left h]

theorem getInstruction_set_ne (M : Module) (n fi bi ii : Nat) (F : Function) (h : fi ≠ n) :
    getInstruction (M.set n F) fi bi ii = getInstruction M fi bi ii := by
  simp [getInstruction, List.getElem?_set_ne (Ne.symm h)]

theorem setInstruction_append (M L : Module) (fi bi ii : Nat) (I : Instruction)
    (h : fi < M.length) :
    setInstruction (M ++ L) fi bi ii I = setInstruction M fi bi ii I ++ L := by
  unfold setInstruction
  induction M generalizing fi with
  | nil => simp at h
  | cons F M ih =>
    cases fi with
    | zero => simp
    | succ fi =>
      simp only [List.length_cons, Nat.add_lt_add_iff_right] at h
      simp [ih fi h]

theorem getInstruction_setInstruction_same (M : Module) (fi bi ii : Nat) (I0 I : Instruction)
    (h : getInstruction M fi bi ii = some I0) :
    getInstruction (setInstruction M fi bi ii I) fi bi ii = some I := by
  unfold getInstruction at h
  cases hF : M[fi]? with
  | none => simp [hF] at h
  | some F =>
    simp only [hF] at h
    cases hB : F.blocks[bi]? with
    | none => simp [hB] at h
    | some BB =>
      simp only [hB] at h
      have hii : ii < BB.length := by
        by_contra hlt
        have hn : BB[ii]? = none := List.getElem?_eq_none (by omega)
        simp [hn] at h
      simp [getInstruction, setInstruction, List.getElem?_modify, hF, hB, List.getElem?_set, hii]

theorem getInstruction_setInstruction_ne (M : Module) (fi bi ii fj bj ij : Nat) (I : Instruction)
    (h : ¬ (fj = fi ∧ bj = bi ∧ ij = ii)) :
    getInstruction (setInstruction M fi bi ii I) fj bj ij = getInstruction M fj bj ij := by
  unfold getInstruction setInstruction
  rw [List.getElem?_modify]
  cases hF : M[fj]? with
  | none => simp
  | some F =>
    by_cases h1 : fi = fj
    · subst h1
      simp only [Option.map_eq_map, Option.map_some', if_true]
      rw [List.getElem?_modify]
      cases hB : F.blocks[bj]? with
      | none => simp
      | some BB =>
        by_cases h2 : bi = bj
        · subst h2
          have h3 : ii ≠ ij := fun h3 => h ⟨rfl, rfl, h3.symm⟩
          simp [List.getElem?_set_ne h3]
        · simp [h2]
    · simp [h1]

theorem getElem?_setInstruction_same (M : Module) (fi bi ii : Nat) (I : Instruction)
    (F : Function) (h : M[fi]? = some F) :
    (setInstruction M fi bi ii I)[fi]? =
      some { F with blocks := F.blocks.modify (fun BB => BB.set ii I) bi } := by
  simp [setInstruction, List.getElem?_modify, h]

theorem getElem?_setInstruction_ne (M : Module) (fi bi ii fj : Nat) (I : Instruction)
    (h : fj ≠ fi) : (setInstruction M fi bi ii I)[fj]? = M[fj]? := by
  have h2 : ¬ fi = fj := fun e => h e.symm
  simp only [setInstruction, List.getElem?_modify, h2, if_false]
  cases M[fj]? <;> rfl

/-! ## One visit of the driver -/

theorem getElem?_append_singleton_of_length {α : Type} (L : List α) (x : α) (n : Nat)
    (h : L.length = n) : (L ++ [x])[n]? = some x := by
  subst h
  simp

theorem set_append_singleton_of_length {α : Type} (L : List α) (x y : α) (n : Nat)
    (h : L.length = n) : (L ++ [x]).set n y = L ++ [y] := by
  subst h
  simp

theorem visitInstruction_other (st : PassState) (fi bi ii op : Nat) (ops : List Value) :
    visitInstruction st fi bi ii (.other op ops) = .ok st := rfl

/-- A visit that does not specialise only writes to `errs()`. -/
theorem visitInstruction_of_not_needs (st st2 : PassState) (fi bi ii : Nat) (ci : CallInst)
    (hN : NeedsToBeCloned st.clonedFunctions ci (getCalledFunction ci) = false)
    (h : visitInstruction st fi bi ii (.call ci) = .ok st2) :
    st2.M = st.M ∧ st2.clonedFunctions = st.clonedFunctions ∧
      st2.functionMappings = st.functionMappings := by
  simp only [visitInstruction, hN] at h
  cases hn : getName st.M (getCalledFunction ci) with
  | error e => simp [hn] at h
  | ok nm =>
    simp only [hn] at h
    injection h with h
    subst h
    exact ⟨rfl, rfl, rfl⟩

/-- A visit that specialises the call at block `bi`, position `ii` of function `fi`:
what it reads and the state it leaves. -/
theorem visitInstruction_of_needs (st st2 : PassState) (fi bi ii : Nat) (ci : CallInst)
    (hfi : fi < st.M.length)
    (hN : NeedsToBeCloned st.clonedFunctions ci (getCalledFunction ci) = true)
    (h : visitInstruction st fi bi ii (.call ci) = .ok st2) :
    ∃ (g : FuncRef) (G C2 : Function), getCalledFunction ci = some g ∧ st.M[g]? = some G ∧
      ReplaceArgumentsWithConstants (ReplaceFunctionCall ci st.M.length)
        (setName (CloneFunction G) (GenerateClonedFunctionName st.functionMappings G).1) = .ok C2 ∧
      st2.M = setInstruction st.M fi bi ii (.call (ReplaceFunctionCall ci st.M.length)) ++ [C2] ∧
      st2.clonedFunctions = st.clonedFunctions.insert st.M.length ∧
      st2.functionMappings = (GenerateClonedFunctionName st.functionMappings G).2 := by
  simp only [visitInstruction, hN, if_true] at h
  cases hg : getCalledFunction ci with
  | none => simp [hg, getName] at h
  | some g =>
    cases hG : st.M[g]? with
    | none => simp [hg, getName, hG] at h
    | some G =>
      simp only [hg, getName, hG, SetupClone, setInstruction_append _ _ _ _ _ _ hfi] at h
      have hlen : ∀ I, (setInstruction st.M fi bi ii I).length = st.M.length :=
        fun I => length_setInstruction _ _ _ _ _
      rw [getElem?_append_singleton_of_length _ _ _ (hlen _)] at h
      simp only at h
      cases hR : ReplaceArgumentsWithConstants (ReplaceFunctionCall ci st.M.length)
          (setName (CloneFunction G) (GenerateClonedFunctionName st.functionMappings G).1) with
      | error e => simp [hR] at h
      | ok C2 =>
        simp only [hR] at h
        rw [set_append_singleton_of_length _ _ _ _ (hlen _)] at h
        injection h with h
        subst h
        exact ⟨g, G, C2, rfl, hG, hR, rfl, rfl, rfl⟩

/-! ## One step of the driver -/

/-- A step that goes on either leaves a loop, changing the iterators only, or visits the
instruction under the iterators and advances the innermost one. -/
theorem driverStep_next_cases (c c1 : Config) (h : driverStep c = .next c1) :
    (getInstruction c.st.M c.FuncIt c.BBIT c.IIT = none ∧ c.FuncIt < c.st.M.length ∧
      c1.st = c.st ∧
      ((c1.FuncIt = c.FuncIt + 1 ∧ c1.BBIT = 0 ∧ c1.IIT = 0) ∨
       (c1.FuncIt = c.FuncIt ∧ c1.BBIT = c.BBIT + 1 ∧ c1.IIT = 0))) ∨
    (∃ I, getInstruction c.st.M c.FuncIt c.BBIT c.IIT = some I ∧
      visitInstruction c.st c.FuncIt c.BBIT c.IIT I = .ok c1.st ∧
      c1.FuncIt = c.FuncIt ∧ c1.BBIT = c.BBIT ∧ c1.IIT = c.IIT + 1) := by
  unfold driverStep at h
  cases hF : c.st.M[c.FuncIt]? with
  | none => simp [hF] at h
  | some F =>
    have hlt : c.FuncIt < c.st.M.length := by
      by_contra hn
      have : c.st.M[c.FuncIt]? = none := List.getElem?_eq_none (by omega)
      simp [this] at hF
    simp only [hF] at h
    cases hB : F.blocks[c.BBIT]? with
    | none =>
      simp only [hB, StepResult.next.injEq] at h
      subst h
      exact Or.inl ⟨by simp [getInstruction, hF, hB], hlt, rfl, Or.inl ⟨rfl, rfl, rfl⟩⟩
    | some BB =>
      simp only [hB] at h
      cases hI : BB[c.IIT]? with
      | none =>
        simp only [hI, StepResult.next.injEq] at h
        subst h
        exact Or.inl ⟨by simp [getInstruction, hF, hB, hI], hlt, rfl, Or.inr ⟨rfl, rfl, rfl⟩⟩
      | some I =>
        simp only [hI] at h
        cases hv : visitInstruction c.st c.FuncIt c.BBIT c.IIT I with
        | error e => simp [hv] at h
        | ok st2 =>
          simp only [hv, StepResult.next.injEq] at h
          subst h
          exact Or.inr ⟨I, by simp [getInstruction, hF, hB, hI], hv, rfl, rfl, rfl⟩

/-- A visit never shortens the function list and changes no instruction of the module
other than the visited one: whatever else it writes is in the function it appends. -/
theorem visitInstruction_frame (st st2 : PassState) (fi bi ii : Nat) (I : Instruction)
    (hI : getInstruction st.M fi bi ii = some I)
    (h : visitInstruction st fi bi ii I = .ok st2) :
    st.M.length ≤ st2.M.length ∧
    ∀ fj bj ij, fj < st.M.length → ¬ (fj = fi ∧ bj = bi ∧ ij = ii) →
      getInstruction st2.M fj bj ij = getInstruction st.M fj bj ij := by
  have hfi := getInstruction_lt hI
  cases I with
  | other op ops =>
    rw [visitInstruction_other] at h
    injection h with h
    subst h
    exact ⟨Nat.le_refl _, fun _ _ _ _ _ => rfl⟩
  | call ci =>
    cases hN : NeedsToBeCloned st.clonedFunctions ci (getCalledFunction ci) with
    | false =>
      obtain ⟨hM, -, -⟩ := visitInstruction_of_not_needs st st2 fi bi ii ci hN h
      rw [hM]
      exact ⟨Nat.le_refl _, fun _ _ _ _ _ => rfl⟩
    | true =>
      obtain ⟨g, G, C2, -, -, -, hM, -, -⟩ := visitInstruction_of_needs st st2 fi bi ii ci hfi hN h
      rw [hM]
      refine ⟨by simp [length_setInstruction], ?_⟩
      intro fj bj ij hfj hne
      rw [getInstruction_append_left _ _ _ _ _ (by simpa [length_setInstruction] using hfj),
        getInstruction_setInstruction_ne _ _ _ _ _ _ _ _ hne]

/-- A step of the driver never shortens the function list, moves the iterators forward,
and changes no instruction that the loops have passed. -/
theorem driverStep_passed (c c1 : Config) (fi bi ii : Nat) (h : driverStep c = .next c1)
    (hfi : fi < c.st.M.length) (hp : c.passed fi bi ii) :
    c.st.M.length ≤ c1.st.M.length ∧ c1.passed fi bi ii ∧
      getInstruction c1.st.M fi bi ii = getInstruction c.st.M fi bi ii := by
  rcases driverStep_next_cases c c1 h with ⟨-, -, hst, hit⟩ | ⟨I, hI, hv, h1, h2, h3⟩
  · rw [hst]
    refine ⟨Nat.le_refl _, ?_, rfl⟩
    unfold Config.passed at hp ⊢
    rcases hit with ⟨a, b, d⟩ | ⟨a, b, d⟩ <;> omega
  · obtain ⟨hlen, hframe⟩ := visitInstruction_frame c.st c1.st _ _ _ I hI hv
    refine ⟨hlen, ?_, hframe fi bi ii hfi ?_⟩
    · unfold Config.passed at hp ⊢
      omega
    · unfold Config.passed at hp
      omega

theorem stepsFrom_passed (n : Nat) (c c1 : Config) (fi bi ii : Nat)
    (h : stepsFrom n c = some c1) (hfi : fi < c.st.M.length) (hp : c.passed fi bi ii) :
    getInstruction c1.st.M fi bi ii = getInstruction c.st.M fi bi ii := by
  induction n generalizing c with
  | zero =>
    simp only [stepsFrom, Option.some.injEq] at h
    rw [h]
  | succ n ih =>
    simp only [stepsFrom] at h
    cases hs : driverStep c with
    | done st => simp [hs] at h
    | fault e => simp [hs] at h
    | next c2 =>
      simp only [hs] at h
      obtain ⟨hlen, hp2, hget⟩ := driverStep_passed c c2 fi bi ii hs hfi hp
      rw [ih c2 h (by omega) hp2, hget]

/-- C4: `ReplaceFunctionCall` makes the clone the target of the call and keeps the
argument operands as they are; and when a step of the driver specialises the call site
under the iterators, the function list grows by one, the call site afterwards targets
the appended function, which is not the former target, with the argument operands it
had, and it still does after any number of further steps of the run. -/
theorem C4_call_retargeted (call_inst : CallInst) :
    (∀ clonedFunction : FuncRef,
      getCalledFunction (ReplaceFunctionCall call_inst clonedFunction) = some clonedFunction ∧
      (ReplaceFunctionCall call_inst clonedFunction).args = call_inst.args) ∧
    ∀ (c c1 : Config) (g : FuncRef),
      getInstruction c.st.M c.FuncIt c.BBIT c.IIT = some (.call call_inst) →
      getCalledFunction call_inst = some g →
      NeedsToBeCloned c.st.clonedFunctions call_inst (some g) = true →
      driverStep c = .next c1 →
      c1.st.M.length = c.st.M.length + 1 ∧ c.st.M.length ≠ g ∧
      ∀ (n : Nat) (c2 : Config), stepsFrom n c1 = some c2 →
        ∃ ci2 : CallInst, getInstruction c2.st.M c.FuncIt c.BBIT c.IIT = some (.call ci2) ∧
          getCalledFunction ci2 = some c.st.M.length ∧ ci2.args = call_inst.args := by
  refine ⟨fun clonedFunction => ⟨rfl, rfl⟩, ?_⟩
  intro c c1 g hI hg hN hs
  rcases driverStep_next_cases c c1 hs with ⟨hnone, -⟩ | ⟨I, hI2, hv, h1, h2, h3⟩
  · rw [hI] at hnone
    exact absurd hnone (by simp)
  · rw [hI] at hI2
    injection hI2 with hI2
    subst hI2
    have hfi := getInstruction_lt hI
    rw [← hg] at hN
    obtain ⟨g2, G, C2, hg2, hG, -, hM, -, -⟩ :=
      visitInstruction_of_needs c.st c1.st _ _ _ call_inst hfi hN hv
    rw [hg] at hg2
    injection hg2 with hg2
    subst hg2
    have hglt : g < c.st.M.length := by
      by_contra hn
      have : c.st.M[g]? = none := List.getElem?_eq_none (Nat.le_of_not_lt hn)
      simp [this] at hG
    have hlen : c1.st.M.length = c.st.M.length + 1 := by
      rw [hM]
      simp [length_setInstruction]
    refine ⟨hlen, Nat.ne_of_gt hglt, ?_⟩
    intro n c2 hsteps
    refine ⟨ReplaceFunctionCall call_inst c.st.M.length, ?_, rfl, rfl⟩
    rw [stepsFrom_passed n c1 c2 c.FuncIt c.BBIT c.IIT hsteps (by omega)
      (by unfold Config.passed; omega), hM,
      getInstruction_append_left _ _ _ _ _ (by simpa [length_setInstruction] using hfi)]
    exact getInstruction_setInstruction_same _ _ _ _ _ _ hI

/-- The first call site of `exMain`, specialised from the initial state. -/
theorem C4_call_retargeted_witness :
    getInstruction exConfig.st.M exConfig.FuncIt exConfig.BBIT exConfig.IIT =
        some (.call { callee := .func 0, args := [.constInt 32 5, .arg 0] }) ∧
    getCalledFunction { callee := .func 0, args := [.constInt 32 5, .arg 0] } = some 0 ∧
    NeedsToBeCloned exConfig.st.clonedFunctions
        { callee := .func 0, args := [.constInt 32 5, .arg 0] } (some 0) = true ∧
    driverStep exConfig = .next exConfigNext ∧
    (exConfigNext.st.M.length = exConfig.st.M.length + 1 ∧ exConfig.st.M.length ≠ 0 ∧
      ∀ (n : Nat) (c2 : Config), stepsFrom n exConfigNext = some c2 →
        ∃ ci2 : CallInst,
          getInstruction c2.st.M exConfig.FuncIt exConfig.BBIT exConfig.IIT = some (.call ci2) ∧
          getCalledFunction ci2 = some exConfig.st.M.length ∧
          ci2.args = [.constInt 32 5, .arg 0]) :=
  ⟨by decide, by decide, by decide, by decide,
    (C4_call_retargeted { callee := .func 0, args := [.constInt 32 5, .arg 0] }).2
      exConfig exConfigNext 0 (by decide) (by decide) (by decide) (by decide)⟩

/-! ## C5: the name generator -/

theorem ReplaceArgumentsWithConstants.loop_name (args : List Value) (i : Nat) (F C2 : Function)
    (h : ReplaceArgumentsWithConstants.loop args i F = .ok C2) :
    C2.name = F.name ∧ C2.params = F.params := by
  induction args generalizing i F with
  | nil =>
    simp only [ReplaceArgumentsWithConstants.loop, Except.ok.injEq] at h
    subst h
    exact ⟨rfl, rfl⟩
  | cons a rest ih =>
    simp only [ReplaceArgumentsWithConstants.loop] at h
    cases hd : dynCastConstantInt a with
    | none =>
      simp only [hd] at h
      exact ih _ _ h
    | some CI =>
      simp only [hd] at h
      by_cases hlt : i < F.params.length
      · simp only [hlt, if_true] at h
        exact ih (i + 1) (replaceAllUsesWith F (.arg i) CI) h
      · simp [hlt] at h

/-! ## Runs of the driver -/

theorem stepsFrom_add (a b : Nat) (c : Config) :
    stepsFrom (a + b) c = (stepsFrom a c).bind (stepsFrom b) := by
  induction a generalizing c with
  | zero => simp [stepsFrom]
  | succ a ih =>
    rw [Nat.add_right_comm]
    simp only [stepsFrom]
    cases driverStep c with
    | next c2 => exact ih c2
    | done st => rfl
    | fault e => rfl

theorem stepsFrom_trans {a b : Nat} {c c1 c2 : Config} (h1 : stepsFrom a c = some c1)
    (h2 : stepsFrom b c1 = some c2) : stepsFrom (a + b) c = some c2 := by
  rw [stepsFrom_add, h1]
  exact h2

theorem stepsFrom_of_le {a b : Nat} {c c2 : Config} (h : stepsFrom b c = some c2)
    (hle : a ≤ b) : ∃ c1, stepsFrom a c = some c1 := by
  obtain ⟨d, rfl⟩ := Nat.exists_eq_add_of_le hle
  rw [stepsFrom_add] at h
  cases h1 : stepsFrom a c with
  | none => simp [h1] at h
  | some c1 => exact ⟨c1, rfl⟩

theorem runFrom_of_stepsFrom {n : Nat} {c c1 : Config} (h : stepsFrom n c = some c1)
    (m : Nat) : runFrom (n + m) c = runFrom m c1 := by
  induction n generalizing c with
  | zero =>
    simp only [stepsFrom, Option.some.injEq] at h
    simp [h]
  | succ n ih =>
    rw [Nat.add_right_comm]
    simp only [stepsFrom] at h
    simp only [runFrom]
    cases hs : driverStep c with
    | next c2 =>
      simp only [hs] at h
      exact ih h
    | done st => simp [hs] at h
    | fault e => simp [hs] at h

theorem runFrom_running {n : Nat} {c c1 : Config} (h : stepsFrom n c = some c1) :
    runFrom n c = .running c1 := by
  have := runFrom_of_stepsFrom h 0
  simpa [runFrom] using this

theorem driverStep_done {c : Config} (h : c.st.M[c.FuncIt]? = none) :
    driverStep c = .done c.st := by
  simp [driverStep, h]

theorem driverStep_exit_function {c : Config} {F : Function}
    (hF : c.st.M[c.FuncIt]? = some F) (hB : F.blocks[c.BBIT]? = none) :
    driverStep c = .next { c with FuncIt := c.FuncIt + 1, BBIT := 0, IIT := 0 } := by
  simp [driverStep, hF, hB]

theorem driverStep_exit_block {c : Config} {F : Function} {BB : BasicBlock}
    (hF : c.st.M[c.FuncIt]? = some F) (hB : F.blocks[c.BBIT]? = some BB)
    (hI : BB[c.IIT]? = none) :
    driverStep c = .next { c with BBIT := c.BBIT + 1, IIT := 0 } := by
  simp [driverStep, hF, hB, hI]

theorem driverStep_visit {c : Config} {F : Function} {BB : BasicBlock} {I : Instruction}
    {st2 : PassState}
    (hF : c.st.M[c.FuncIt]? = some F) (hB : F.blocks[c.BBIT]? = some BB)
    (hI : BB[c.IIT]? = some I)
    (hv : visitInstruction c.st c.FuncIt c.BBIT c.IIT I = .ok st2) :
    driverStep c = .next { c with st := st2, IIT := c.IIT + 1 } := by
  simp [driverStep, hF, hB, hI, hv]

/-- A visit that specialises: the state it leaves, given what it reads. -/
theorem visitInstruction_needs_ok (st : PassState) (fi bi ii : Nat) (ci : CallInst)
    (g : FuncRef) (G C2 : Function) (hfi : fi < st.M.length)
    (hg : getCalledFunction ci = some g) (hG : st.M[g]? = some G)
    (hN : NeedsToBeCloned st.clonedFunctions ci (some g) = true)
    (hC2 : ReplaceArgumentsWithConstants (ReplaceFunctionCall ci st.M.length)
      (setName (CloneFunction G) (GenerateClonedFunctionName st.functionMappings G).1) = .ok C2) :
    visitInstruction st fi bi ii (.call ci) = .ok
      { M := setInstruction st.M fi bi ii (.call (ReplaceFunctionCall ci st.M.length)) ++ [C2],
        clonedFunctions := st.clonedFunctions.insert st.M.length,
        functionMappings := (GenerateClonedFunctionName st.functionMappings G).2,
        errs := st.errs ++ ["Need to be cloned: " ++ G.name ++ "\n"] } := by
  have hlen : ∀ I, (setInstruction st.M fi bi ii I).length = st.M.length :=
    fun I => length_setInstruction _ _ _ _ _
  simp only [visitInstruction, hg, hN, if_true, getName, hG, SetupClone,
    setInstruction_append _ _ _ _ _ _ hfi]
  rw [getElem?_append_singleton_of_length _ _ _ (hlen _)]
  simp only [hC2]
  rw [set_append_singleton_of_length _ _ _ _ (hlen _)]

/-! ## Runs over instructions that are not specialised -/

theorem PassState.same_refl (a : PassState) : a.same a := ⟨rfl, rfl, rfl⟩

theorem PassState.same_trans {a b c : PassState} (h1 : a.same b) (h2 : b.same c) : a.same c :=
  ⟨h1.1.trans h2.1, h1.2.1.trans h2.2.1, h1.2.2.trans h2.2.2⟩

theorem quiet_of_not_isCall (M : Module) (reg : List FuncRef) (I : Instruction)
    (h : I.isCall = false) : quiet M reg I = true := by
  cases I with
  | call ci => simp [Instruction.isCall] at h
  | other op ops => rfl

theorem visitInstruction_quiet (st : PassState) (fi bi ii : Nat) (I : Instruction)
    (hq : quiet st.M st.clonedFunctions I = true) :
    ∃ st2, visitInstruction st fi bi ii I = .ok st2 ∧ st2.same st := by
  cases I with
  | other op ops => exact ⟨st, rfl, st.same_refl⟩
  | call ci =>
    unfold quiet at hq
    cases hg : getCalledFunction ci with
    | none => simp [hg] at hq
    | some g =>
      simp only [hg, Bool.and_eq_true, decide_eq_true_eq, Bool.not_eq_true'] at hq
      obtain ⟨hlt, hN⟩ := hq
      have hG : st.M[g]? = some st.M[g] := List.getElem?_eq_getElem hlt
      refine ⟨{ st with errs := st.errs ++ ["Doesn't need to be cloned: " ++ st.M[g].name ++ "\n"] },
        ?_, rfl, rfl, rfl⟩
      simp [visitInstruction, hg, hN, getName, hG]

theorem quiet_congr {a b : PassState} (h : a.same b) (I : Instruction) :
    quiet a.M a.clonedFunctions I = quiet b.M b.clonedFunctions I := by
  rw [h.1, h.2.1]

/-- Within a block: `k` instructions from position `ii` on, none of them specialised,
take `k` steps and leave function list, registry and counters as they were. -/
theorem stepsFrom_quiet_block (fi bi : Nat) (k : Nat) : ∀ (st : PassState) (ii : Nat),
    (∀ j, ii ≤ j → j < ii + k → ∃ I, getInstruction st.M fi bi j = some I ∧
      quiet st.M st.clonedFunctions I = true) →
    ∃ st2, stepsFrom k ⟨st, fi, bi, ii⟩ = some ⟨st2, fi, bi, ii + k⟩ ∧ st2.same st := by
  induction k with
  | zero => exact fun st ii _ => ⟨st, rfl, st.same_refl⟩
  | succ k ih =>
    intro st ii h
    obtain ⟨I, hI, hq⟩ := h ii (Nat.le_refl _) (by omega)
    obtain ⟨st1, hv, hs1⟩ := visitInstruction_quiet st fi bi ii I hq
    have hstep : driverStep ⟨st, fi, bi, ii⟩ = .next ⟨st1, fi, bi, ii + 1⟩ := by
      unfold getInstruction at hI
      cases hF : st.M[fi]? with
      | none => simp [hF] at hI
      | some F =>
        simp only [hF] at hI
        cases hB : F.blocks[bi]? with
        | none => simp [hB] at hI
        | some BB =>
          simp only [hB] at hI
          exact driverStep_visit (c := ⟨st, fi, bi, ii⟩) hF hB hI hv
    obtain ⟨st2, hs, hs2⟩ := ih st1 (ii + 1) (by
      intro j h1 h2
      obtain ⟨J, hJ, hqJ⟩ := h j (by omega) (by omega)
      exact ⟨J, by rw [hs1.1]; exact hJ, by rw [quiet_congr hs1]; exact hqJ⟩)
    refine ⟨st2, ?_, PassState.same_trans hs2 hs1⟩
    simp only [stepsFrom, hstep]
    rw [hs, show ii + 1 + k = ii + (k + 1) by omega]

/-- The rest of a block from position `ii` on, none of its instructions specialised, and
the step out of the block. -/
theorem stepsFrom_quiet_block_end (st : PassState) (fi bi ii : Nat) (F : Function)
    (BB : BasicBlock) (hF : st.M[fi]? = some F) (hB : F.blocks[bi]? = some BB)
    (hii : ii ≤ BB.length)
    (hq : ∀ j, ii ≤ j → ∀ I, BB[j]? = some I → quiet st.M st.clonedFunctions I = true) :
    ∃ n st2, stepsFrom n ⟨st, fi, bi, ii⟩ = some ⟨st2, fi, bi + 1, 0⟩ ∧ st2.same st := by
  obtain ⟨st1, hs1, hsame⟩ := stepsFrom_quiet_block fi bi (BB.length - ii) st ii (by
    intro j h1 h2
    have hj : j < BB.length := by omega
    refine ⟨BB[j], by simp [getInstruction, hF, hB, List.getElem?_eq_getElem hj], ?_⟩
    exact hq j h1 _ (List.getElem?_eq_getElem hj))
  rw [show ii + (BB.length - ii) = BB.length by omega] at hs1
  have hexit : driverStep ⟨st1, fi, bi, BB.length⟩ = .next ⟨st1, fi, bi + 1, 0⟩ :=
    driverStep_exit_block (c := ⟨st1, fi, bi, BB.length⟩) (by rw [hsame.1]; exact hF) hB
      (List.getElem?_eq_none (Nat.le_refl _))
  refine ⟨BB.length - ii + 1, st1, ?_, hsame⟩
  rw [stepsFrom_add, hs1]
  simp [stepsFrom, hexit]

/-- Whole blocks: from the start of block `bi` to the start of block `bi + d`, none of the
instructions in between specialised. -/
theorem stepsFrom_quiet_blocks (fi : Nat) (F : Function) (d : Nat) :
    ∀ (st : PassState) (bi : Nat), st.M[fi]? = some F → bi + d ≤ F.blocks.length →
    (∀ b, bi ≤ b → b < bi + d → ∀ BB, F.blocks[b]? = some BB → ∀ I ∈ BB,
      quiet st.M st.clonedFunctions I = true) →
    ∃ n st2, stepsFrom n ⟨st, fi, bi, 0⟩ = some ⟨st2, fi, bi + d, 0⟩ ∧ st2.same st := by
  induction d with
  | zero => exact fun st bi _ _ _ => ⟨0, st, rfl, st.same_refl⟩
  | succ d ih =>
    intro st bi hF hle hq
    have hbi : bi < F.blocks.length := by omega
    obtain ⟨n1, st1, hs1, hsame1⟩ := stepsFrom_quiet_block_end st fi bi 0 F F.blocks[bi] hF
      (List.getElem?_eq_getElem hbi) (Nat.zero_le _)
      (fun j _ I hI => hq bi (Nat.le_refl _) (by omega) _ (List.getElem?_eq_getElem hbi) I
        (List.getElem?_mem hI))
    obtain ⟨n2, st2, hs2, hsame2⟩ := ih st1 (bi + 1) (by rw [hsame1.1]; exact hF) (by omega)
      (fun b h1 h2 BB hBB I hI => by
        rw [quiet_congr hsame1]
        exact hq b (by omega) (by omega) BB hBB I hI)
    refine ⟨n1 + n2, st2, ?_, PassState.same_trans hsame2 hsame1⟩
    rw [show bi + (d + 1) = bi + 1 + d by omega]
    exact stepsFrom_trans hs1 hs2

theorem getInstruction_eq {M : Module} {fi : Nat} {F : Function} (hF : M[fi]? = some F)
    (b i : Nat) :
    getInstruction M fi b i = (F.blocks[b]?).bind fun BB => BB[i]? := by
  simp only [getInstruction, hF]
  cases F.blocks[b]? <;> rfl

/-- From the start of block `bi` to the end of the function and on to the next function,
none of the instructions on the way specialised. -/
theorem stepsFrom_quiet_rest (st : PassState) (fi bi : Nat) (F : Function)
    (hF : st.M[fi]? = some F) (hbi : bi ≤ F.blocks.length)
    (hq : ∀ b i I, getInstruction st.M fi b i = some I → bi ≤ b →
      quiet st.M st.clonedFunctions I = true) :
    ∃ n st2, stepsFrom n ⟨st, fi, bi, 0⟩ = some ⟨st2, fi + 1, 0, 0⟩ ∧ st2.same st := by
  obtain ⟨n1, st1, hs1, hsame1⟩ := stepsFrom_quiet_blocks fi F (F.blocks.length - bi) st bi hF
    (by omega) (by
      intro b h1 _ BB hBB I hI
      obtain ⟨i, hi⟩ := List.mem_iff_getElem?.1 hI
      exact hq b i I (by rw [getInstruction_eq hF, hBB]; exact hi) h1)
  rw [show bi + (F.blocks.length - bi) = F.blocks.length by omega] at hs1
  have hexit : driverStep ⟨st1, fi, F.blocks.length, 0⟩ = .next ⟨st1, fi + 1, 0, 0⟩ :=
    driverStep_exit_function (c := ⟨st1, fi, F.blocks.length, 0⟩) (by rw [hsame1.1]; exact hF)
      (List.getElem?_eq_none (Nat.le_refl _))
  refine ⟨n1 + 1, st1, ?_, hsame1⟩
  rw [stepsFrom_add, hs1]
  simp [stepsFrom, hexit]

/-- From a position inside a block to the end of the function and on to the next
function, none of the instructions on the way specialised. -/
theorem stepsFrom_quiet_function_end (st : PassState) (fi bi ii : Nat) (F : Function)
    (BB : BasicBlock) (hF : st.M[fi]? = some F) (hB : F.blocks[bi]? = some BB)
    (hii : ii ≤ BB.length)
    (hq : ∀ b i I, getInstruction st.M fi b i = some I → (bi < b ∨ (bi = b ∧ ii ≤ i)) →
      quiet st.M st.clonedFunctions I = true) :
    ∃ n st2, stepsFrom n ⟨st, fi, bi, ii⟩ = some ⟨st2, fi + 1, 0, 0⟩ ∧ st2.same st := by
  have hbi : bi < F.blocks.length := by
    by_contra hn
    rw [List.getElem?_eq_none (by omega)] at hB
    exact absurd hB (by simp)
  obtain ⟨n1, st1, hs1, hsame1⟩ := stepsFrom_quiet_block_end st fi bi ii F BB hF hB hii
    (fun j hj I hI => hq bi j I (by rw [getInstruction_eq hF, hB]; exact hI) (Or.inr ⟨rfl, hj⟩))
  obtain ⟨n2, st2, hs2, hsame2⟩ := stepsFrom_quiet_rest st1 fi (bi + 1) F
    (by rw [hsame1.1]; exact hF) (by omega) (by
      intro b i I hI hb
      rw [quiet_congr hsame1]
      rw [hsame1.1] at hI
      exact hq b i I hI (Or.inl (by omega)))
  exact ⟨n1 + n2, st2, stepsFrom_trans hs1 hs2, PassState.same_trans hsame2 hsame1⟩

/-- From one position of a function to a later one, none of the instructions from the
first position up to, but not including, the second specialised. -/
theorem stepsFrom_quiet_to (st : PassState) (fi bi ii bj ij : Nat) (F : Function)
    (BBi BBj : BasicBlock) (hF : st.M[fi]? = some F)
    (hBi : F.blocks[bi]? = some BBi) (hii : ii ≤ BBi.length)
    (hBj : F.blocks[bj]? = some BBj) (hij : ij ≤ BBj.length)
    (hle : bi < bj ∨ (bi = bj ∧ ii ≤ ij))
    (hq : ∀ b i I, getInstruction st.M fi b i = some I → (bi < b ∨ (bi = b ∧ ii ≤ i)) →
      (b < bj ∨ (b = bj ∧ i < ij)) → quiet st.M st.clonedFunctions I = true) :
    ∃ n st2, stepsFrom n ⟨st, fi, bi, ii⟩ = some ⟨st2, fi, bj, ij⟩ ∧ st2.same st := by
  have hbj : bj < F.blocks.length := by
    by_contra hn
    rw [List.getElem?_eq_none (by omega)] at hBj
    exact absurd hBj (by simp)
  have inBlock : ∀ (st1 : PassState) (i0 : Nat), st1.same st → i0 ≤ ij →
      (bi < bj ∨ (bi = bj ∧ ii ≤ i0)) →
      ∃ st2, stepsFrom (ij - i0) ⟨st1, fi, bj, i0⟩ = some ⟨st2, fi, bj, ij⟩ ∧ st2.same st := by
    intro st1 i0 hsame1 hi0 hlo
    obtain ⟨st2, hs2, hsame2⟩ := stepsFrom_quiet_block fi bj (ij - i0) st1 i0 (by
      intro j h1 h2
      have hj : j < BBj.length := by omega
      have hget : getInstruction st.M fi bj j = some BBj[j] := by
        rw [getInstruction_eq hF, hBj]
        exact List.getElem?_eq_getElem hj
      refine ⟨BBj[j], by rw [hsame1.1]; exact hget, ?_⟩
      rw [quiet_congr hsame1]
      exact hq bj j _ hget (by omega) (Or.inr ⟨rfl, by omega⟩))
    rw [show i0 + (ij - i0) = ij by omega] at hs2
    exact ⟨st2, hs2, PassState.same_trans hsame2 hsame1⟩
  rcases hle with hlt | ⟨rfl, hle2⟩
  · obtain ⟨n1, st1, hs1, hsame1⟩ := stepsFrom_quiet_block_end st fi bi ii F BBi hF hBi hii
      (fun j hj I hI => hq bi j I (by rw [getInstruction_eq hF, hBi]; exact hI)
        (Or.inr ⟨rfl, hj⟩) (Or.inl hlt))
    obtain ⟨n2, st2, hs2, hsame2⟩ := stepsFrom_quiet_blocks fi F (bj - (bi + 1)) st1 (bi + 1)
      (by rw [hsame1.1]; exact hF) (by omega) (by
        intro b h1 h2 BB hBB I hI
        obtain ⟨i, hi⟩ := List.mem_iff_getElem?.1 hI
        rw [quiet_congr hsame1]
        exact hq b i I (by rw [getInstruction_eq hF, hBB]; exact hi) (Or.inl (by omega))
          (Or.inl (by omega)))
    rw [show bi + 1 + (bj - (bi + 1)) = bj by omega] at hs2
    obtain ⟨st3, hs3, hsame3⟩ := inBlock st2 0 (PassState.same_trans hsame2 hsame1)
      (Nat.zero_le _) (Or.inl hlt)
    exact ⟨n1 + n2 + (ij - 0), st3, stepsFrom_trans (stepsFrom_trans hs1 hs2) hs3, hsame3⟩
  · obtain ⟨st2, hs2, hsame2⟩ := inBlock st ii st.same_refl hle2 (Or.inr ⟨rfl, Nat.le_refl _⟩)
    exact ⟨ij - ii, st2, hs2, hsame2⟩

theorem getInstruction_some {M : Module} {fi b i : Nat} {F : Function} {I : Instruction}
    (hF : M[fi]? = some F) (h : getInstruction M fi b i = some I) :
    ∃ BB, F.blocks[b]? = some BB ∧ BB[i]? = some I ∧ i < BB.length ∧ BB ∈ F.blocks ∧ I ∈ BB := by
  rw [getInstruction_eq hF] at h
  obtain ⟨BB, hBB, hI⟩ := Option.bind_eq_some.1 h
  refine ⟨BB, hBB, hI, ?_, List.getElem?_mem hBB, List.getElem?_mem hI⟩
  by_contra hn
  rw [List.getElem?_eq_none (by omega)] at hI
  exact absurd hI (by simp)

theorem Instruction.isCall_mapOperands (σ : Value → Value) (I : Instruction) :
    (I.mapOperands σ).isCall = I.isCall := by
  cases I <;> rfl

/-- A step of the driver that specialises the call under the iterators. -/
theorem driverStep_specialise (st : PassState) (fi bi ii : Nat) (ci : CallInst)
    (g : FuncRef) (G C2 : Function)
    (hI : getInstruction st.M fi bi ii = some (.call ci))
    (hg : getCalledFunction ci = some g) (hG : st.M[g]? = some G)
    (hN : NeedsToBeCloned st.clonedFunctions ci (some g) = true)
    (hC2 : ReplaceArgumentsWithConstants (ReplaceFunctionCall ci st.M.length)
      (setName (CloneFunction G) (GenerateClonedFunctionName st.functionMappings G).1) = .ok C2) :
    driverStep ⟨st, fi, bi, ii⟩ = .next
      ⟨{ M := setInstruction st.M fi bi ii (.call (ReplaceFunctionCall ci st.M.length)) ++ [C2],
         clonedFunctions := st.clonedFunctions.insert st.M.length,
         functionMappings := (GenerateClonedFunctionName st.functionMappings G).2,
         errs := st.errs ++ ["Need to be cloned: " ++ G.name ++ "\n"] }, fi, bi, ii + 1⟩ := by
  have hfi := getInstruction_lt hI
  obtain ⟨BB, hBB, hIB, -⟩ := getInstruction_some (List.getElem?_eq_getElem hfi) hI
  exact driverStep_visit (c := ⟨st, fi, bi, ii⟩) (List.getElem?_eq_getElem hfi) hBB hIB
    (visitInstruction_needs_ok st fi bi ii ci g G C2 hfi hg hG hN hC2)

/-- A whole function without calls is passed over. -/
theorem stepsFrom_no_calls (st : PassState) (fi : Nat) (F : Function)
    (hF : st.M[fi]? = some F) (hno : ∀ BB ∈ F.blocks, ∀ I ∈ BB, I.isCall = false) :
    ∃ n st2, stepsFrom n ⟨st, fi, 0, 0⟩ = some ⟨st2, fi + 1, 0, 0⟩ ∧ st2.same st := by
  refine stepsFrom_quiet_rest st fi 0 F hF (Nat.zero_le _) ?_
  intro b i I hI _
  obtain ⟨BB, -, -, -, hBB, hIB⟩ := getInstruction_some hF hI
  exact quiet_of_not_isCall _ _ _ (hno BB hBB I hIB)

/-! ## C10: the scenario with two call sites -/

theorem substituted_pair (w : Nat) (c : Int) (x : Value) (hx : ∀ w2 c2, x ≠ .constInt w2 c2) :
    substituted [.constInt w c, x] 0 = fun v => if v = .arg 0 then .constInt w c else v := by
  funext v
  cases v with
  | arg n =>
    match n with
    | 0 => simp [substituted, dynCastConstantInt]
    | 1 =>
      have : dynCastConstantInt x = none := dynCastConstantInt_eq_none.2 hx
      simp [substituted, this]
    | n + 2 => simp [substituted]
  | _ => simp [substituted]

/-- The substitution at a call `f(c, x)`, `x` not an integer constant, in a renamed copy
of the callee of the scenario. -/
theorem scenario_replace (ta tb : Nat) (body : List BasicBlock) (x : Value)
    (hx : ∀ w2 c2, x ≠ .constInt w2 c2) (w : Nat) (c : Int) (tgt : Value) (nm : String) :
    ReplaceArgumentsWithConstants { callee := tgt, args := [.constInt w c, x] }
      (setName (CloneFunction (scenarioF ta tb body)) nm) =
      .ok (scenarioClone ta tb body nm w c) := by
  unfold ReplaceArgumentsWithConstants
  rw [ReplaceArgumentsWithConstants.loop_eq _ _ _ (by simp [setName, CloneFunction, scenarioF]),
    substituted_pair w c x hx, CloneFunction_eq]
  rfl

theorem scenarioClone_no_calls (ta tb : Nat) (body : List BasicBlock) (nm : String) (w : Nat)
    (c : Int) (hf : ∀ BB ∈ body, ∀ I ∈ BB, I.isCall = false) :
    ∀ BB ∈ (scenarioClone ta tb body nm w c).blocks, ∀ I ∈ BB, I.isCall = false := by
  intro BB hBB I hI
  simp only [scenarioClone, replaceAllUsesWith, Function.mapOperands, scenarioF,
    List.mem_map] at hBB
  obtain ⟨BB0, hBB0, rfl⟩ := hBB
  obtain ⟨I0, hI0, rfl⟩ := List.mem_map.1 hI
  rw [Instruction.isCall_mapOperands]
  exact hf BB0 hBB0 I0 hI0

theorem stepsFrom_one {c c1 : Config} (h : driverStep c = .next c1) :
    stepsFrom 1 c = some c1 := by
  simp [stepsFrom, h]

theorem runFrom_done {c : Config} (h : c.st.M[c.FuncIt]? = none) :
    runFrom 1 c = .finished false c.st := by
  simp [runFrom, driverStep_done h]

/-! ## C7: calls without a direct target -/

/-- The visit of a call whose called value is not a function ends in a null dereference,
whether or not the policy asks for a clone. -/
theorem visitInstruction_indirect (st : PassState) (fi bi ii : Nat) (ci : CallInst)
    (h : getCalledFunction ci = none) :
    visitInstruction st fi bi ii (.call ci) = .error .nullFunction := by
  simp only [visitInstruction, h, getName]
  cases NeedsToBeCloned st.clonedFunctions ci none <;> simp

/-- C7 fails on the code: on a module whose first instruction is an indirect call, the
driver does not skip the call. It evaluates the policy with a null target (which answers
true when an argument is an integer constant) and then dereferences the null target, with
or without a constant argument: the run faults at its first step. -/
theorem C7_indirect_call_not_skipped :
    getCalledFunction { callee := .arg 0, args := [.constInt 32 1] } = none ∧
    NeedsToBeCloned [] { callee := .arg 0, args := [.constInt 32 1] } none = true ∧
    runOnModule 1 exIndirect = .fault .nullFunction ∧
    getCalledFunction { callee := .arg 0, args := [.arg 1] } = none ∧
    NeedsToBeCloned [] { callee := .arg 0, args := [.arg 1] } none = false ∧
    runOnModule 1 exIndirectPlain = .fault .nullFunction := by
  decide

/-! ## C9: targets in the clone registry -/

/-- C9: at a call site whose target is a function of the module that is in the clone
registry, whatever the argument operands are, `NeedsToBeCloned` returns false and the step
of the driver goes on to the next instruction with the function list (hence the call and
its target), the registry and the name counters as they were. -/
theorem C9_registered_target_not_cloned (c : Config) (ci : CallInst) (g : FuncRef)
    (hI : getInstruction c.st.M c.FuncIt c.BBIT c.IIT = some (.call ci))
    (hg : getCalledFunction ci = some g) (hlt : g < c.st.M.length)
    (hreg : g ∈ c.st.clonedFunctions) :
    NeedsToBeCloned c.st.clonedFunctions ci (some g) = false ∧
    ∃ c1 : Config, driverStep c = .next c1 ∧
      c1.FuncIt = c.FuncIt ∧ c1.BBIT = c.BBIT ∧ c1.IIT = c.IIT + 1 ∧
      c1.st.M = c.st.M ∧ c1.st.clonedFunctions = c.st.clonedFunctions ∧
      c1.st.functionMappings = c.st.functionMappings := by
  have hN : NeedsToBeCloned c.st.clonedFunctions ci (some g) = false := by
    cases h : NeedsToBeCloned c.st.clonedFunctions ci (some g) with
    | false => rfl
    | true => exact absurd hreg ((NeedsToBeCloned.loop_iff c.st.clonedFunctions g ci.args).1 h).2
  refine ⟨hN, ?_⟩
  obtain ⟨G, hG⟩ : ∃ G, c.st.M[g]? = some G := ⟨c.st.M[g], List.getElem?_eq_getElem hlt⟩
  unfold getInstruction at hI
  cases hF : c.st.M[c.FuncIt]? with
  | none => simp [hF] at hI
  | some F =>
    simp only [hF] at hI
    cases hB : F.blocks[c.BBIT]? with
    | none => simp [hB] at hI
    | some BB =>
      simp only [hB] at hI
      simp [driverStep, hF, hB, hI, visitInstruction, hg, hN, getName, hG]

/-- The witness state for C9: the call of the second clone of `exRec` targets the first. -/
theorem C9_registered_target_not_cloned_witness :
    getInstruction exRecConfig.st.M exRecConfig.FuncIt exRecConfig.BBIT exRecConfig.IIT =
      some (.call { callee := .func 1, args := [.constInt 32 1] }) ∧
    getCalledFunction { callee := .func 1, args := [.constInt 32 1] } = some 1 ∧
    1 < exRecConfig.st.M.length ∧ 1 ∈ exRecConfig.st.clonedFunctions ∧
    (NeedsToBeCloned exRecConfig.st.clonedFunctions
        { callee := .func 1, args := [.constInt 32 1] } (some 1) = false ∧
      ∃ c1 : Config, driverStep exRecConfig = .next c1 ∧
        c1.FuncIt = exRecConfig.FuncIt ∧ c1.BBIT = exRecConfig.BBIT ∧
        c1.IIT = exRecConfig.IIT + 1 ∧
        c1.st.M = exRecConfig.st.M ∧ c1.st.clonedFunctions = exRecConfig.st.clonedFunctions ∧
        c1.st.functionMappings = exRecConfig.st.functionMappings) :=
  ⟨by decide, by decide, by decide, by decide,
    C9_registered_target_not_cloned exRecConfig
      { callee := .func 1, args := [.constInt 32 1] } 1
      (by decide) (by decide) (by decide) (by decide)⟩

/-! ## C8: a run that does not end -/

/-- From a point of the run on `exLoop` where the driver enters a copy of `g` with `5` for
the parameter, four steps lead to the next such point: the call of `g(5)` in the copy is
specialised, which appends another such copy. -/
theorem LoopInv.next_state (c : Config) (h : LoopInv c) :
    ∃ c4, stepsFrom 4 c = some c4 ∧ LoopInv c4 ∧ c4.st.M.length = c.st.M.length + 1 ∧
      c4.st.functionMappings = (GenerateClonedFunctionName c.st.functionMappings exLoopG).2 := by
  obtain ⟨st, fi, bi, ii⟩ := c
  obtain ⟨hlen, h2, hbi, hii, h0, hg, nm, hF⟩ := h
  simp only at hlen h2 hbi hii h0 hg hF
  subst hbi hii
  have hfi : fi < st.M.length := by omega
  have hN : NeedsToBeCloned st.clonedFunctions exLoopCall (some 0) = true :=
    (NeedsToBeCloned.loop_iff _ 0 _).2
      ⟨⟨_, List.mem_singleton_self _, 32, 5, rfl⟩, h0⟩
  have hv := visitInstruction_needs_ok st fi 0 0 exLoopCall 0 exLoopG
    (Function.mk (GenerateClonedFunctionName st.functionMappings exLoopG).1 [32] exLoopBody5)
    hfi rfl hg hN rfl
  obtain ⟨st1, hv1, hM1, hR1, hC1⟩ : ∃ st1, visitInstruction st fi 0 0 (.call exLoopCall) = .ok st1 ∧
      st1.M = setInstruction st.M fi 0 0 (.call (ReplaceFunctionCall exLoopCall st.M.length))
        ++ [Function.mk (GenerateClonedFunctionName st.functionMappings exLoopG).1 [32]
              exLoopBody5] ∧
      st1.clonedFunctions = st.clonedFunctions.insert st.M.length ∧
      st1.functionMappings = (GenerateClonedFunctionName st.functionMappings exLoopG).2 :=
    ⟨_, hv, rfl, rfl, rfl⟩
  have hs1 := driverStep_visit (c := ⟨st, fi, 0, 0⟩) hF
    (show exLoopBody5[0]? = some _ from rfl) (show _ = some _ from rfl) hv1
  simp only at hs1
  have hF1 : ∀ M1 : Module, M1 = setInstruction st.M fi 0 0
        (.call (ReplaceFunctionCall exLoopCall st.M.length))
        ++ [Function.mk (GenerateClonedFunctionName st.functionMappings exLoopG).1 [32]
              exLoopBody5] →
      M1[fi]? = some (Function.mk nm [32]
        [[.call (ReplaceFunctionCall exLoopCall st.M.length), .other 0 []]]) := by
    intro M1 e
    rw [e, List.getElem?_append_left (by simpa [length_setInstruction] using hfi),
      getElem?_setInstruction_same _ _ _ _ _ _ hF]
    rfl
  have hs2 := driverStep_visit (c := ⟨st1, fi, 0, 1⟩) (hF1 _ hM1)
    (show _ = some _ from rfl) (show _ = some _ from rfl) (visitInstruction_other _ _ _ _ _ _)
  have hs3 := driverStep_exit_block (c := ⟨st1, fi, 0, 2⟩) (hF1 _ hM1)
    (show _ = some _ from rfl) (show _ = none from rfl)
  have hs4 := driverStep_exit_function (c := ⟨st1, fi, 1, 0⟩) (hF1 _ hM1)
    (show _ = none from rfl)
  simp only at hs2 hs3 hs4
  refine ⟨⟨st1, fi + 1, 0, 0⟩, by simp only [stepsFrom, hs1, hs2, hs3, hs4], ?_, ?_, hC1⟩
  swap
  · simp only [hM1]
    simp [length_setInstruction]
  refine ⟨?_, ?_, rfl, rfl, ?_, ?_, ?_⟩
  · simp only [hM1]
    simp [length_setInstruction, hlen]
  · simp only
    omega
  · simp only [hR1, List.mem_insert_iff, not_or]
    refine ⟨fun e => ?_, h0⟩
    have h3 : st.M.length = 0 := e.symm
    omega
  · simp only [hM1]
    rw [List.getElem?_append_left (by simp [length_setInstruction]; omega),
      getElem?_setInstruction_ne _ _ _ _ _ _ (by omega), hg]
  · simp only [hM1]
    exact ⟨_, getElem?_append_singleton_of_length _ _ _
      (by simp [length_setInstruction, hlen])⟩

/-- From a point of the run on `exLoop` where the driver enters a copy of `g` with `5` for
the parameter, four steps lead to the next such point. -/
theorem LoopInv.next (c : Config) (h : LoopInv c) :
    ∃ c4, stepsFrom 4 c = some c4 ∧ LoopInv c4 := by
  obtain ⟨c4, hs, hinv, -, -⟩ := h.next_state c
  exact ⟨c4, hs, hinv⟩

theorem LoopInv.goes_on (fuel : Nat) : ∀ c : Config, LoopInv c → ∃ c1, stepsFrom fuel c = some c1 := by
  induction fuel using Nat.strong_induction_on with
  | _ fuel ih =>
    intro c h
    obtain ⟨c4, hs, h4⟩ := h.next c
    by_cases hf : fuel ≤ 4
    · exact stepsFrom_of_le hs hf
    · obtain ⟨c1, h1⟩ := ih (fuel - 4) (by omega) c4 h4
      refine ⟨c1, ?_⟩
      have := stepsFrom_trans hs h1
      rwa [show 4 + (fuel - 4) = fuel by omega] at this

theorem LoopInv.start : stepsFrom 8 (initial exLoop) = some exLoopStart ∧ LoopInv exLoopStart :=
  ⟨by decide, by decide, by decide, by decide, by decide, by decide, by decide, "g1", by decide⟩

/-- C8 fails on the code: `exLoop` is well formed (every call has a direct target with as
many arguments as parameters), yet the run on it never ends: whatever the bound on the
number of steps, the loops are still running when it is reached. Each clone of the
recursive `g` calls `g` with the constant, which is specialised in turn. -/
theorem C8_run_does_not_end :
    wellFormed exLoop = true ∧ ∀ fuel : Nat, ∃ c : Config, runOnModule fuel exLoop = .running c := by
  refine ⟨by decide, ?_⟩
  intro fuel
  obtain ⟨hs, hinv⟩ := LoopInv.start
  by_cases hf : fuel ≤ 8
  · obtain ⟨c1, h1⟩ := stepsFrom_of_le hs hf
    exact ⟨c1, runFrom_running h1⟩
  · obtain ⟨c1, h1⟩ := LoopInv.goes_on (fuel - 8) exLoopStart hinv
    refine ⟨c1, ?_⟩
    have := stepsFrom_trans hs h1
    rw [show 8 + (fuel - 8) = fuel by omega] at this
    exact runFrom_running this

/-! ## C10: the run on the scenario -/

/-- C10: take `f(a, b)` with a body without calls, and a caller whose only two call
instructions are `f(5, x)` and then `f(7, y)`, `x` and `y` not integer constants. The run
on the module `[f, caller]` ends; it leaves `f` as it was, the caller with the first call
retargeted to the third function and the second to the fourth, argument operands as they
were and every other instruction untouched, and two appended functions `f1` and `f2` that
are `f` with every use of `a` replaced by `5`, respectively `7`, and nothing else changed
(so the uses of `b` are as in `f`); the registry holds the two clones and the counter of
`f` is 2. -/
theorem C10_two_call_sites (ta tb : Nat) (body : List BasicBlock) (caller : Function)
    (x y : Value) (w1 w2 b1 i1 b2 i2 : Nat)
    (hf : ∀ BB ∈ body, ∀ I ∈ BB, I.isCall = false)
    (hx : ∀ w c, x ≠ .constInt w c) (hy : ∀ w c, y ≠ .constInt w c)
    (hc1 : getInstruction [scenarioF ta tb body, caller] 1 b1 i1 =
      some (.call { callee := .func 0, args := [.constInt w1 5, x] }))
    (hc2 : getInstruction [scenarioF ta tb body, caller] 1 b2 i2 =
      some (.call { callee := .func 0, args := [.constInt w2 7, y] }))
    (hlt : b1 < b2 ∨ (b1 = b2 ∧ i1 < i2))
    (hothers : ∀ b i I, getInstruction [scenarioF ta tb body, caller] 1 b i = some I →
      ¬ (b = b1 ∧ i = i1) → ¬ (b = b2 ∧ i = i2) → I.isCall = false) :
    ∃ (fuel : Nat) (st : PassState),
      runOnModule fuel [scenarioF ta tb body, caller] = .finished false st ∧
      st.M = setInstruction (setInstruction [scenarioF ta tb body, caller] 1 b1 i1
            (.call { callee := .func 2, args := [.constInt w1 5, x] })) 1 b2 i2
            (.call { callee := .func 3, args := [.constInt w2 7, y] }) ++
          [scenarioClone ta tb body "f1" w1 5, scenarioClone ta tb body "f2" w2 7] ∧
      st.clonedFunctions = [3, 2] ∧ st.functionMappings = [("f", 2)] := by
  -- the callee is passed over
  obtain ⟨n1, st1, hs1, hsame1⟩ := stepsFrom_no_calls (initial [scenarioF ta tb body, caller]).st
    0 (scenarioF ta tb body) rfl hf
  obtain ⟨M1, reg1, fm1, errs1⟩ := st1
  obtain ⟨hM, hR, hFm⟩ := hsame1
  simp only [initial] at hM hR hFm
  subst hM hR hFm
  -- up to the first call site
  obtain ⟨BB1, hBB1, hI1, hlen1, -⟩ := getInstruction_some (F := caller) rfl hc1
  have hb1 : b1 < caller.blocks.length := by
    by_contra hn
    rw [List.getElem?_eq_none (by omega)] at hBB1
    exact absurd hBB1 (by simp)
  obtain ⟨n2, st2, hs2, hsame2⟩ := stepsFrom_quiet_to
    ⟨[scenarioF ta tb body, caller], [], [], errs1⟩ 1 0 0 b1 i1 caller caller.blocks[0] BB1 rfl
    (List.getElem?_eq_getElem (by omega)) (Nat.zero_le _) hBB1 (by omega) (by omega)
    (fun b i I hI _ hbefore => quiet_of_not_isCall _ _ _
      (hothers b i I hI (by omega) (by omega)))
  obtain ⟨M2, reg2, fm2, errs2⟩ := st2
  obtain ⟨hM, hR, hFm⟩ := hsame2
  simp only at hM hR hFm
  subst hM hR hFm
  -- the first call site is specialised
  obtain ⟨errs3, hs3⟩ : ∃ errs3, driverStep
      ⟨⟨[scenarioF ta tb body, caller], [], [], errs2⟩, 1, b1, i1⟩ = .next
      ⟨⟨setInstruction [scenarioF ta tb body, caller] 1 b1 i1
          (.call { callee := .func 2, args := [.constInt w1 5, x] }) ++
          [scenarioClone ta tb body "f1" w1 5], [2], [("f", 1)], errs3⟩, 1, b1, i1 + 1⟩ :=
    ⟨_, driverStep_specialise ⟨[scenarioF ta tb body, caller], [], [], errs2⟩ 1 b1 i1
      { callee := .func 0, args := [.constInt w1 5, x] } 0 (scenarioF ta tb body)
      (scenarioClone ta tb body "f1" w1 5) hc1 rfl rfl rfl
      (scenario_replace ta tb body x hx w1 5 _ _)⟩
  generalize hMa : setInstruction [scenarioF ta tb body, caller] 1 b1 i1
      (.call { callee := .func 2, args := [.constInt w1 5, x] }) = Ma at hs3
  have hMalen : Ma.length = 2 := by rw [← hMa, length_setInstruction]; rfl
  have hMa0 : Ma[0]? = some (scenarioF ta tb body) := by
    rw [← hMa, getElem?_setInstruction_ne _ _ _ _ _ _ (by omega)]
    rfl
  have hMaget : ∀ b i, ¬ (b = b1 ∧ i = i1) →
      getInstruction Ma 1 b i = getInstruction [scenarioF ta tb body, caller] 1 b i := by
    intro b i hne
    rw [← hMa]
    exact getInstruction_setInstruction_ne _ _ _ _ _ _ _ _ (by omega)
  have hMasite : getInstruction Ma 1 b1 i1 =
      some (.call { callee := .func 2, args := [.constInt w1 5, x] }) := by
    rw [← hMa]
    exact getInstruction_setInstruction_same _ _ _ _ _ _ hc1
  -- up to the second call site
  have hMaf1get : ∀ b i, getInstruction (Ma ++ [scenarioClone ta tb body "f1" w1 5]) 1 b i =
      getInstruction Ma 1 b i :=
    fun b i => getInstruction_append_left _ _ _ _ _ (by omega)
  have hF3 : (Ma ++ [scenarioClone ta tb body "f1" w1 5])[1]? = some Ma[1] := by
    rw [List.getElem?_append_left (by omega)]
    exact List.getElem?_eq_getElem (by omega)
  obtain ⟨BBa, hBBa, -, hlena, -⟩ := getInstruction_some hF3 ((hMaf1get b1 i1).trans hMasite)
  have hc2a : getInstruction (Ma ++ [scenarioClone ta tb body "f1" w1 5]) 1 b2 i2 =
      some (.call { callee := .func 0, args := [.constInt w2 7, y] }) := by
    rw [hMaf1get, hMaget b2 i2 (by omega), hc2]
  obtain ⟨BBb, hBBb, -, hlenb, -⟩ := getInstruction_some hF3 hc2a
  obtain ⟨n4, st4, hs4, hsame4⟩ := stepsFrom_quiet_to
    ⟨Ma ++ [scenarioClone ta tb body "f1" w1 5], [2], [("f", 1)], errs3⟩ 1 b1 (i1 + 1) b2 i2
    Ma[1] BBa BBb hF3 hBBa (by omega) hBBb (by omega) (by omega)
    (fun b i I hI hafter hbefore => quiet_of_not_isCall _ _ _
      (hothers b i I (by
        rw [← hMaget b i (by omega), ← hMaf1get]
        exact hI) (by omega) (by omega)))
  obtain ⟨M4, reg4, fm4, errs4⟩ := st4
  obtain ⟨hM, hR, hFm⟩ := hsame4
  simp only at hM hR hFm
  subst hM hR hFm
  -- the second call site is specialised
  obtain ⟨errs5, hs5⟩ : ∃ errs5, driverStep
      ⟨⟨Ma ++ [scenarioClone ta tb body "f1" w1 5], [2], [("f", 1)], errs4⟩, 1, b2, i2⟩ = .next
      ⟨⟨setInstruction (Ma ++ [scenarioClone ta tb body "f1" w1 5]) 1 b2 i2
          (.call { callee := .func (Ma ++ [scenarioClone ta tb body "f1" w1 5]).length,
                   args := [.constInt w2 7, y] }) ++
          [scenarioClone ta tb body "f2" w2 7],
        [(Ma ++ [scenarioClone ta tb body "f1" w1 5]).length, 2], [("f", 2)], errs5⟩,
        1, b2, i2 + 1⟩ := by
    have hN : NeedsToBeCloned [2] { callee := .func 0, args := [.constInt w2 7, y] } (some 0)
        = true := rfl
    have hG : (Ma ++ [scenarioClone ta tb body "f1" w1 5])[0]? = some (scenarioF ta tb body) := by
      rw [List.getElem?_append_left (by omega)]
      exact hMa0
    have := driverStep_specialise
      ⟨Ma ++ [scenarioClone ta tb body "f1" w1 5], [2], [("f", 1)], errs4⟩ 1 b2 i2
      { callee := .func 0, args := [.constInt w2 7, y] } 0 (scenarioF ta tb body)
      (scenarioClone ta tb body "f2" w2 7) hc2a rfl hG hN
      (scenario_replace ta tb body y hy w2 7 _ _)
    have hins : List.insert (Ma ++ [scenarioClone ta tb body "f1" w1 5]).length [2] =
        [(Ma ++ [scenarioClone ta tb body "f1" w1 5]).length, 2] := by
      simp [hMalen]
    refine ⟨errs4 ++ ["Need to be cloned: " ++ (scenarioF ta tb body).name ++ "\n"], ?_⟩
    rw [this]
    simp only [hins]
    rfl
  have hlen3 : (Ma ++ [scenarioClone ta tb body "f1" w1 5]).length = 3 := by simp [hMalen]
  rw [hlen3] at hs5
  have hMbeq : setInstruction (Ma ++ [scenarioClone ta tb body "f1" w1 5]) 1 b2 i2
      (.call { callee := .func 3, args := [.constInt w2 7, y] }) =
      setInstruction Ma 1 b2 i2 (.call { callee := .func 3, args := [.constInt w2 7, y] }) ++
        [scenarioClone ta tb body "f1" w1 5] := setInstruction_append _ _ _ _ _ _ (by omega)
  rw [hMbeq] at hs5
  generalize hMb : setInstruction Ma 1 b2 i2
      (.call { callee := .func 3, args := [.constInt w2 7, y] }) = Mb at hs5
  have hMblen : Mb.length = 2 := by rw [← hMb, length_setInstruction, hMalen]
  have hMbget : ∀ b i, ¬ (b = b2 ∧ i = i2) → getInstruction Mb 1 b i = getInstruction Ma 1 b i := by
    intro b i hne
    rw [← hMb]
    exact getInstruction_setInstruction_ne _ _ _ _ _ _ _ _ (by omega)
  have hMbsite : getInstruction Mb 1 b2 i2 =
      some (.call { callee := .func 3, args := [.constInt w2 7, y] }) := by
    rw [← hMb]
    exact getInstruction_setInstruction_same _ _ _ _ _ _
      ((hMaf1get b2 i2).symm.trans hc2a)
  generalize hM5 : Mb ++ [scenarioClone ta tb body "f1" w1 5] ++
      [scenarioClone ta tb body "f2" w2 7] = M5 at hs5
  have hM5len : M5.length = 4 := by rw [← hM5]; simp [hMblen]
  have hM5get : ∀ b i, getInstruction M5 1 b i = getInstruction Mb 1 b i := by
    intro b i
    rw [← hM5, List.append_assoc]
    exact getInstruction_append_left _ _ _ _ _ (by omega)
  have hM5_1 : M5[1]? = some M5[1] := List.getElem?_eq_getElem (by omega)
  have hM5_2 : M5[2]? = some (scenarioClone ta tb body "f1" w1 5) := by
    rw [← hM5, List.getElem?_append_left (by simp [hMblen])]
    exact getElem?_append_singleton_of_length _ _ _ hMblen
  have hM5_3 : M5[3]? = some (scenarioClone ta tb body "f2" w2 7) := by
    rw [← hM5]
    exact getElem?_append_singleton_of_length _ _ _ (by simp [hMblen])
  -- the rest of the caller
  obtain ⟨BBc, hBBc, -, hlenc, -⟩ := getInstruction_some hM5_1 ((hM5get b2 i2).trans hMbsite)
  obtain ⟨n6, st6, hs6, hsame6⟩ := stepsFrom_quiet_function_end
    ⟨M5, [3, 2], [("f", 2)], errs5⟩ 1 b2 (i2 + 1) M5[1] BBc hM5_1 hBBc (by omega)
    (fun b i I hI hafter => quiet_of_not_isCall _ _ _
      (hothers b i I (by
        rw [← hMaget b i (by omega), ← hMbget b i (by omega), ← hM5get]
        exact hI) (by omega) (by omega)))
  obtain ⟨M6, reg6, fm6, errs6⟩ := st6
  obtain ⟨hM, hR, hFm⟩ := hsame6
  simp only at hM hR hFm
  have hM2 := hM.symm
  subst hM2 hR hFm
  -- the two clones are passed over
  obtain ⟨n7, st7, hs7, hsame7⟩ := stepsFrom_no_calls ⟨M5, [3, 2], [("f", 2)], errs6⟩ 2 _ hM5_2
    (scenarioClone_no_calls ta tb body "f1" w1 5 hf)
  obtain ⟨M7, reg7, fm7, errs7⟩ := st7
  obtain ⟨hM, hR, hFm⟩ := hsame7
  simp only at hM hR hFm
  have hM2 := hM.symm
  subst hM2 hR hFm
  obtain ⟨n8, st8, hs8, hsame8⟩ := stepsFrom_no_calls ⟨M5, [3, 2], [("f", 2)], errs7⟩ 3 _ hM5_3
    (scenarioClone_no_calls ta tb body "f2" w2 7 hf)
  obtain ⟨M8, reg8, fm8, errs8⟩ := st8
  obtain ⟨hM, hR, hFm⟩ := hsame8
  simp only at hM hR hFm
  have hM2 := hM.symm
  subst hM2 hR hFm
  -- the run ends
  have hrun := stepsFrom_trans (stepsFrom_trans (stepsFrom_trans (stepsFrom_trans
    (stepsFrom_trans (stepsFrom_trans (stepsFrom_trans hs1 hs2) (stepsFrom_one hs3)) hs4)
    (stepsFrom_one hs5)) hs6) hs7) hs8
  refine ⟨_, ⟨M5, [3, 2], [("f", 2)], errs8⟩,
    (runFrom_of_stepsFrom hrun 1).trans
      (runFrom_done (c := ⟨⟨M5, [3, 2], [("f", 2)], errs8⟩, 4, 0, 0⟩)
        (List.getElem?_eq_none (by simp [hM5len]))), ?_, rfl, rfl⟩
  simp only [← hM5, ← hMb, ← hMa, List.append_assoc, List.singleton_append]

theorem exF_no_calls : ∀ BB ∈ exF.blocks, ∀ I ∈ BB, I.isCall = false := by
  intro BB hBB I hI
  simp only [exF, List.mem_singleton] at hBB
  subst hBB
  simp only [List.mem_cons, List.mem_singleton, List.not_mem_nil, or_false] at hI
  rcases hI with rfl | rfl <;> rfl

theorem exMain_others : ∀ b i I,
    getInstruction [scenarioF 32 32 exF.blocks, exMain] 1 b i = some I →
    ¬ (b = 0 ∧ i = 0) → ¬ (b = 0 ∧ i = 1) → I.isCall = false := by
  intro b i I h h1 h2
  match b, i with
  | 0, 0 => exact absurd ⟨rfl, rfl⟩ h1
  | 0, 1 => exact absurd ⟨rfl, rfl⟩ h2
  | 0, 2 =>
    simp only [getInstruction, exMain, List.getElem?_cons_succ, List.getElem?_cons_zero,
      Option.some.injEq] at h
    subst h
    rfl
  | 0, i + 3 => simp [getInstruction, exMain] at h
  | b + 1, i => simp [getInstruction, exMain] at h

/-- The scenario with `exF` as callee and `exMain` as caller. -/
theorem C10_two_call_sites_witness :
    getInstruction [scenarioF 32 32 exF.blocks, exMain] 1 0 0 =
      some (.call { callee := .func 0, args := [.constInt 32 5, .arg 0] }) ∧
    getInstruction [scenarioF 32 32 exF.blocks, exMain] 1 0 1 =
      some (.call { callee := .func 0, args := [.constInt 32 7, .inst 0] }) ∧
    ∃ (fuel : Nat) (st : PassState),
      runOnModule fuel [scenarioF 32 32 exF.blocks, exMain] = .finished false st ∧
      st.M = setInstruction (setInstruction [scenarioF 32 32 exF.blocks, exMain] 1 0 0
            (.call { callee := .func 2, args := [.constInt 32 5, .arg 0] })) 1 0 1
            (.call { callee := .func 3, args := [.constInt 32 7, .inst 0] }) ++
          [scenarioClone 32 32 exF.blocks "f1" 32 5, scenarioClone 32 32 exF.blocks "f2" 32 7] ∧
      st.clonedFunctions = [3, 2] ∧ st.functionMappings = [("f", 2)] :=
  ⟨by decide, by decide,
    C10_two_call_sites 32 32 exF.blocks exMain (.arg 0) (.inst 0) 32 32 0 0 0 1 exF_no_calls
      (by simp) (by simp) (by decide) (by decide) (by decide) exMain_others⟩

/-! ## C15: the constant classifier -/

/-- C15: `IsConstantArgument` (a total function) returns true exactly on integer
constants; it returns false on parameters, instruction results, blocks, and on the
constants that are not integer constants (functions among them); and it agrees on every
value with the test `dyn_cast<ConstantInt>` alone, the one `ReplaceArgumentsWithConstants`
uses, so the test `isa<Constant>` in front of it changes nothing. -/
theorem C15_IsConstantArgument_classifies (v : Value) :
    (IsConstantArgument v = true ↔ ∃ w c, v = .constInt w c) ∧
    IsConstantArgument v = (dynCastConstantInt v).isSome ∧
    (∀ i, IsConstantArgument (.arg i) = false) ∧
    (∀ k, IsConstantArgument (.inst k) = false) ∧
    (∀ b, IsConstantArgument (.block b) = false) ∧
    (∀ t, IsConstantArgument (.constOther t) = false) ∧
    (∀ f, IsConstantArgument (.func f) = false) := by
  refine ⟨IsConstantArgument_iff v, ?_, fun _ => rfl, fun _ => rfl, fun _ => rfl,
    fun _ => rfl, fun _ => rfl⟩
  cases v <;> rfl

/-! ## C17: the argument cursor -/

/-- An integer constant at an argument position for which the clone has no formal
parameter makes the loop dereference the argument iterator past the end. -/
theorem ReplaceArgumentsWithConstants.loop_fault (args : List Value) (i : Nat) (F : Function)
    (j w : Nat) (c : Int) (hj : F.params.length ≤ i + j)
    (hc : args[j]? = some (.constInt w c)) :
    ReplaceArgumentsWithConstants.loop args i F = .error .argOutOfRange := by
  induction args generalizing i F j with
  | nil => simp at hc
  | cons a rest ih =>
    cases j with
    | zero =>
      simp only [List.getElem?_cons_zero, Option.some.injEq] at hc
      subst hc
      have hlt : ¬ i < F.params.length := by omega
      simp [ReplaceArgumentsWithConstants.loop, dynCastConstantInt, hlt]
    | succ j =>
      simp only [List.getElem?_cons_succ] at hc
      simp only [ReplaceArgumentsWithConstants.loop]
      cases hd : dynCastConstantInt a with
      | none => exact ih (i + 1) F j (by omega) hc
      | some CI =>
        by_cases hlt : i < F.params.length
        · simp only [hlt, if_true]
          exact ih (i + 1) (replaceAllUsesWith F (.arg i) CI) j
            (by simpa [replaceAllUsesWith, Function.mapOperands] using (by omega :
              F.params.length ≤ i + 1 + j)) hc
        · simp [hlt]

theorem substituted_of_not_const (args : List Value) (i : Nat)
    (h : ∀ w c, args[i]? ≠ some (.constInt w c)) :
    substituted args 0 (.arg i) = .arg i :=
  (substituted_eq_arg_iff args i h (.arg i)).2 rfl

/-- C17: in `ReplaceArgumentsWithConstants` the parameter under the argument iterator at
argument `i` is parameter `i`. When the call has as many argument operands as the clone has
formal parameters, no lookup is out of range (the function returns) and every operand of
the clone that is parameter `i` becomes argument `i` when that is an integer constant and
stays otherwise, all other operands staying too. Without the precondition the lookup can be
out of range: an integer constant at an argument position the clone has no parameter for
makes the function fault. -/
theorem C17_argument_cursor (call_inst : CallInst) (clonedFunction : Function) :
    (call_inst.args.length = clonedFunction.params.length →
      ∃ C2 : Function, ReplaceArgumentsWithConstants call_inst clonedFunction = .ok C2 ∧
        C2.operands = clonedFunction.operands.map (substituted call_inst.args 0) ∧
        (∀ (i w : Nat) (c : Int), call_inst.args[i]? = some (.constInt w c) →
          substituted call_inst.args 0 (.arg i) = .constInt w c) ∧
        (∀ i : Nat, (∀ w c, call_inst.args[i]? ≠ some (.constInt w c)) →
          substituted call_inst.args 0 (.arg i) = .arg i) ∧
        (∀ v : Value, (∀ i, v ≠ .arg i) → substituted call_inst.args 0 v = v)) ∧
    (∀ (j w : Nat) (c : Int), clonedFunction.params.length ≤ j →
      call_inst.args[j]? = some (.constInt w c) →
      ReplaceArgumentsWithConstants call_inst clonedFunction = .error .argOutOfRange) := by
  refine ⟨fun hlen => ⟨_, ReplaceArgumentsWithConstants.loop_eq call_inst.args 0 clonedFunction
      (by omega), Function.operands_mapOperands _ _,
      fun i w c h => substituted_zero_of_const _ i w c h,
      fun i h => substituted_of_not_const _ i h, ?_⟩, ?_⟩
  · intro v hv
    cases v with
    | arg i => exact absurd rfl (hv i)
    | _ => rfl
  · intro j w c hj hc
    exact ReplaceArgumentsWithConstants.loop_fault call_inst.args 0 clonedFunction j w c
      (by omega) hc

/-- The call `f(5, x)` on `exF`, in range, and the call `v(x, 7)` on a clone with one
parameter, out of range. -/
theorem C17_argument_cursor_witness :
    (CallInst.mk (.func 0) [.constInt 32 5, .arg 0]).args.length = exF.params.length ∧
    (∃ C2 : Function,
      ReplaceArgumentsWithConstants (CallInst.mk (.func 0) [.constInt 32 5, .arg 0]) exF
        = .ok C2 ∧
      C2.operands =
        exF.operands.map (substituted (CallInst.mk (.func 0) [.constInt 32 5, .arg 0]).args 0)) ∧
    exVariadic.params.length ≤ 1 ∧ exVariadicCall.args[1]? = some (.constInt 32 7) ∧
    ReplaceArgumentsWithConstants exVariadicCall exVariadic = .error .argOutOfRange :=
  ⟨by decide,
    let ⟨C2, h1, h2, _⟩ := (C17_argument_cursor (CallInst.mk (.func 0) [.constInt 32 5, .arg 0])
      exF).1 (by decide)
    ⟨C2, h1, h2⟩,
    by decide, by decide,
    (C17_argument_cursor exVariadicCall exVariadic).2 1 32 7 (by decide) (by decide)⟩

/-! ## What a step does to the module, the registry and the counters -/

/-- A step that goes on either leaves function list, registry and counters as they were,
or it specialises the call under the iterators: the call is retargeted, one function is
appended, its index enters the registry and one counter goes up. -/
theorem driverStep_module_cases (c c1 : Config) (h : driverStep c = .next c1) :
    (c.specialises = false ∧ c1.st.M = c.st.M ∧
      c1.st.clonedFunctions = c.st.clonedFunctions ∧
      c1.st.functionMappings = c.st.functionMappings) ∨
    (c.specialises = true ∧ ∃ (ci : CallInst) (g : FuncRef) (G C2 : Function),
      getInstruction c.st.M c.FuncIt c.BBIT c.IIT = some (.call ci) ∧
      getCalledFunction ci = some g ∧ c.st.M[g]? = some G ∧
      ReplaceArgumentsWithConstants (ReplaceFunctionCall ci c.st.M.length)
        (setName (CloneFunction G) (GenerateClonedFunctionName c.st.functionMappings G).1)
          = .ok C2 ∧
      c1.st.M = setInstruction c.st.M c.FuncIt c.BBIT c.IIT
        (.call (ReplaceFunctionCall ci c.st.M.length)) ++ [C2] ∧
      c1.st.clonedFunctions = c.st.clonedFunctions.insert c.st.M.length ∧
      c1.st.functionMappings = (GenerateClonedFunctionName c.st.functionMappings G).2) := by
  rcases driverStep_next_cases c c1 h with ⟨hnone, -, hst, -⟩ | ⟨I, hI, hv, -⟩
  · left
    rw [hst]
    exact ⟨by simp [Config.specialises, hnone], rfl, rfl, rfl⟩
  · cases I with
    | other op ops =>
      left
      rw [visitInstruction_other] at hv
      injection hv with hv
      rw [← hv]
      exact ⟨by simp [Config.specialises, hI], rfl, rfl, rfl⟩
    | call ci =>
      cases hN : NeedsToBeCloned c.st.clonedFunctions ci (getCalledFunction ci) with
      | false =>
        left
        exact ⟨by simp [Config.specialises, hI, hN],
          visitInstruction_of_not_needs c.st c1.st _ _ _ ci hN hv⟩
      | true =>
        right
        obtain ⟨g, G, C2, hg, hG, hC2, hM, hR, hF⟩ :=
          visitInstruction_of_needs c.st c1.st _ _ _ ci (getInstruction_lt hI) hN hv
        exact ⟨by simp [Config.specialises, hI, hN], ci, g, G, C2, hI, hg, hG, hC2, hM, hR, hF⟩

/-! ## C12: structure of the clone -/

theorem Function.mapOperands_structure (σ : Value → Value) (F : Function) :
    (F.mapOperands σ).blocks.map List.length = F.blocks.map List.length := by
  simp [Function.mapOperands, List.map_map, Function.comp_def]

theorem ReplaceArgumentsWithConstants.loop_structure (args : List Value) (i : Nat)
    (F C2 : Function) (h : ReplaceArgumentsWithConstants.loop args i F = .ok C2) :
    C2.blocks.map List.length = F.blocks.map List.length := by
  induction args generalizing i F with
  | nil =>
    simp only [ReplaceArgumentsWithConstants.loop, Except.ok.injEq] at h
    rw [h]
  | cons a rest ih =>
    simp only [ReplaceArgumentsWithConstants.loop] at h
    cases hd : dynCastConstantInt a with
    | none =>
      simp only [hd] at h
      exact ih _ _ h
    | some CI =>
      simp only [hd] at h
      by_cases hlt : i < F.params.length
      · simp only [hlt, if_true] at h
        rw [ih (i + 1) (replaceAllUsesWith F (.arg i) CI) h]
        exact Function.mapOperands_structure _ F
      · simp [hlt] at h

/-- C12: at a call site that the driver is about to specialise, with target `G`:
`SetupClone` appends a function with the structure of `G` (as many formal parameters,
as many basic blocks, as many instructions in each block); a step that goes on leaves, as
the one appended function, a function with the structure of `G`, the substitution having
run; and when the call has as many argument operands as `G` has formal parameters the step
does go on. -/
theorem C12_clone_structure (c : Config) (ci : CallInst) (g : FuncRef) (G : Function)
    (hI : getInstruction c.st.M c.FuncIt c.BBIT c.IIT = some (.call ci))
    (hg : getCalledFunction ci = some g) (hG : c.st.M[g]? = some G)
    (hN : NeedsToBeCloned c.st.clonedFunctions ci (some g) = true) :
    (∃ (st1 : PassState) (C : Function),
      SetupClone c.st (some g) = .ok (c.st.M.length, st1) ∧
      st1.M.length = c.st.M.length + 1 ∧ st1.M[c.st.M.length]? = some C ∧
      sameStructure C G) ∧
    (∀ c1 : Config, driverStep c = .next c1 →
      ∃ C2 : Function, c1.st.M.length = c.st.M.length + 1 ∧
        c1.st.M[c.st.M.length]? = some C2 ∧ sameStructure C2 G) ∧
    (ci.args.length = G.params.length → ∃ c1 : Config, driverStep c = .next c1) := by
  refine ⟨?_, ?_, ?_⟩
  · refine ⟨{ c.st with
        M := c.st.M ++
          [setName (CloneFunction G) (GenerateClonedFunctionName c.st.functionMappings G).1],
        functionMappings := (GenerateClonedFunctionName c.st.functionMappings G).2 },
      setName (CloneFunction G) (GenerateClonedFunctionName c.st.functionMappings G).1,
      by simp only [SetupClone, hG], by simp, by simp, ?_⟩
    rw [CloneFunction_eq]
    exact ⟨rfl, rfl⟩
  · intro c1 hs
    rcases driverStep_module_cases c c1 hs with ⟨hsp, -⟩ | ⟨-, ci2, g2, G2, C2, hI2, hg2, hG2, hC2, hM, -⟩
    · rw [← hg] at hN
      simp [Config.specialises, hI, hN] at hsp
    · rw [hI] at hI2
      injection hI2 with hI2
      injection hI2 with hI2
      subst hI2
      rw [hg] at hg2
      injection hg2 with hg2
      subst hg2
      rw [hG] at hG2
      injection hG2 with hG2
      subst hG2
      refine ⟨C2, by rw [hM]; simp [length_setInstruction], ?_, ?_⟩
      · rw [hM]
        exact getElem?_append_singleton_of_length _ _ _ (length_setInstruction _ _ _ _ _)
      · have h1 := ReplaceArgumentsWithConstants.loop_name _ _ _ _ hC2
        have h2 := ReplaceArgumentsWithConstants.loop_structure _ _ _ _ hC2
        rw [CloneFunction_eq] at h1 h2
        exact ⟨by rw [h1.2]; rfl, by rw [h2]; rfl⟩
  · intro hlen
    have hC2 := ReplaceArgumentsWithConstants.loop_eq (ReplaceFunctionCall ci c.st.M.length).args 0
      (setName (CloneFunction G) (GenerateClonedFunctionName c.st.functionMappings G).1)
      (by simp [ReplaceFunctionCall, setCalledFunction, setName, CloneFunction, hlen])
    exact ⟨_, driverStep_specialise c.st c.FuncIt c.BBIT c.IIT ci g G _ hI hg hG hN hC2⟩

/-- The first call site of `exMain`, about to be specialised from the initial state. -/
theorem C12_clone_structure_witness :
    getInstruction exConfig.st.M exConfig.FuncIt exConfig.BBIT exConfig.IIT =
        some (.call { callee := .func 0, args := [.constInt 32 5, .arg 0] }) ∧
    getCalledFunction { callee := .func 0, args := [.constInt 32 5, .arg 0] } = some 0 ∧
    exConfig.st.M[0]? = some exF ∧
    NeedsToBeCloned exConfig.st.clonedFunctions
        { callee := .func 0, args := [.constInt 32 5, .arg 0] } (some 0) = true ∧
    ((∃ (st1 : PassState) (C : Function),
        SetupClone exConfig.st (some 0) = .ok (exConfig.st.M.length, st1) ∧
        st1.M.length = exConfig.st.M.length + 1 ∧ st1.M[exConfig.st.M.length]? = some C ∧
        sameStructure C exF) ∧
      (∀ c1 : Config, driverStep exConfig = .next c1 →
        ∃ C2 : Function, c1.st.M.length = exConfig.st.M.length + 1 ∧
          c1.st.M[exConfig.st.M.length]? = some C2 ∧ sameStructure C2 exF) ∧
      ((CallInst.mk (.func 0) [.constInt 32 5, .arg 0]).args.length = exF.params.length →
        ∃ c1 : Config, driverStep exConfig = .next c1)) :=
  ⟨by decide, by decide, by decide, by decide,
    C12_clone_structure exConfig { callee := .func 0, args := [.constInt 32 5, .arg 0] } 0 exF
      (by decide) (by decide) (by decide) (by decide)⟩

/-! ## C13, C14: what a step leaves alone -/

theorem map_signature_setInstruction (M : Module) (fi bi ii : Nat) (I : Instruction) :
    (setInstruction M fi bi ii I).map signature = M.map signature := by
  unfold setInstruction
  induction M generalizing fi with
  | nil => simp
  | cons F M ih =>
    cases fi with
    | zero =>
      have hlen : (List.modify (fun BB => BB.set ii I) bi F.blocks).map List.length
          = F.blocks.map List.length := by
        apply List.ext_getElem?
        intro k
        simp only [List.getElem?_map, List.getElem?_modify]
        cases F.blocks[k]? with
        | none => rfl
        | some BB => by_cases hk : bi = k <;> simp [hk]
      simp [signature, hlen]
    | succ fi => simp [ih fi]

/-- C13: a step of the driver keeps every function of the list in its place, with its
name, formal parameters and block structure, so that the list before the step is, function
by function, a prefix of the list after it, and every function other than the one under
the outer iterator is literally unchanged; a step that specialises appends exactly one
function and a step that does not leaves the list as it is; hence after any number of
steps from a point of the run, in particular from the start on the input module, the
functions of that point are a prefix of the function list. -/
theorem C13_function_list_grows (c : Config) :
    (∀ c1 : Config, driverStep c = .next c1 →
      c.st.M.map signature <+: c1.st.M.map signature ∧
      (∀ i, i < c.st.M.length → i ≠ c.FuncIt → c1.st.M[i]? = c.st.M[i]?) ∧
      (c.specialises = true → c1.st.M.length = c.st.M.length + 1) ∧
      (c.specialises = false → c1.st.M = c.st.M)) ∧
    (∀ (n : Nat) (c2 : Config), stepsFrom n c = some c2 →
      c.st.M.map signature <+: c2.st.M.map signature) := by
  have hstep : ∀ c c1 : Config, driverStep c = .next c1 →
      c.st.M.map signature <+: c1.st.M.map signature ∧
      (∀ i, i < c.st.M.length → i ≠ c.FuncIt → c1.st.M[i]? = c.st.M[i]?) ∧
      (c.specialises = true → c1.st.M.length = c.st.M.length + 1) ∧
      (c.specialises = false → c1.st.M = c.st.M) := by
    intro c c1 hs
    rcases driverStep_module_cases c c1 hs with ⟨hsp, hM, -⟩ | ⟨hsp, ci, g, G, C2, hI, -, -, -, hM, -⟩
    · rw [hM]
      exact ⟨List.prefix_refl _, fun _ _ _ => rfl, fun h => (by rw [hsp] at h; cases h),
        fun _ => rfl⟩
    · rw [hM]
      refine ⟨?_, ?_, fun _ => (by simp [length_setInstruction]),
        fun h => (by rw [hsp] at h; cases h)⟩
      · rw [List.map_append, map_signature_setInstruction]
        exact List.prefix_append _ _
      · intro i hi hne
        rw [List.getElem?_append_left (by simpa [length_setInstruction] using hi),
          getElem?_setInstruction_ne _ _ _ _ _ _ hne]
  refine ⟨hstep c, ?_⟩
  intro n
  induction n generalizing c with
  | zero =>
    intro c2 h
    simp only [stepsFrom, Option.some.injEq] at h
    rw [h]
  | succ n ih =>
    intro c2 h
    simp only [stepsFrom] at h
    cases hs : driverStep c with
    | done st => simp [hs] at h
    | fault e => simp [hs] at h
    | next c1 =>
      simp only [hs] at h
      exact List.IsPrefix.trans (hstep c c1 hs).1 (ih c1 c2 h)

/-- The step from `exConfig`, which specialises, and three steps on from there. -/
theorem C13_function_list_grows_witness :
    driverStep exConfig = .next exConfigNext ∧ exConfig.specialises = true ∧
    stepsFrom 3 exConfig = some exConfigLater ∧
    exConfig.st.M.map signature <+: exConfigNext.st.M.map signature ∧
    exConfigNext.st.M.length = exConfig.st.M.length + 1 ∧
    exConfig.st.M.map signature <+: exConfigLater.st.M.map signature :=
  ⟨by decide, by decide, by decide,
    ((C13_function_list_grows exConfig).1 exConfigNext (by decide)).1,
    ((C13_function_list_grows exConfig).1 exConfigNext (by decide)).2.2.1 (by decide),
    (C13_function_list_grows exConfig).2 3 exConfigLater (by decide)⟩

/-- C14: when a step of the driver specialises a call site whose target is `G`, the
function at index `g`, the step leaves `G` exactly as it was when the call site is in
another function; when the call site is in `G` itself, `G` differs afterwards in that one
instruction only, which is the same call with the appended function as its target; and
every other function that was in the list is exactly as it was: what the substitution
rewrites is the body of the appended function. -/
theorem C14_original_not_mutated (c c1 : Config) (ci : CallInst) (g : FuncRef) (G : Function)
    (hI : getInstruction c.st.M c.FuncIt c.BBIT c.IIT = some (.call ci))
    (hg : getCalledFunction ci = some g) (hG : c.st.M[g]? = some G)
    (hN : NeedsToBeCloned c.st.clonedFunctions ci (some g) = true)
    (hs : driverStep c = .next c1) :
    (g ≠ c.FuncIt → c1.st.M[g]? = some G) ∧
    (g = c.FuncIt → c1.st.M[g]? = some { G with
      blocks := G.blocks.modify
        (fun BB => BB.set c.IIT (.call { callee := .func c.st.M.length, args := ci.args }))
        c.BBIT }) ∧
    (∀ b i, ¬ (g = c.FuncIt ∧ b = c.BBIT ∧ i = c.IIT) →
      getInstruction c1.st.M g b i = getInstruction c.st.M g b i) ∧
    (∀ i, i < c.st.M.length → i ≠ c.FuncIt → c1.st.M[i]? = c.st.M[i]?) ∧
    c1.st.M.length = c.st.M.length + 1 := by
  have hglt : g < c.st.M.length := by
    by_contra hn
    rw [List.getElem?_eq_none (Nat.le_of_not_lt hn)] at hG
    exact absurd hG (by simp)
  rcases driverStep_module_cases c c1 hs with ⟨hsp, -⟩ | ⟨-, ci2, g2, G2, C2, hI2, -, -, -, hM, -⟩
  · rw [← hg] at hN
    simp [Config.specialises, hI, hN] at hsp
  · rw [hI] at hI2
    injection hI2 with hI2
    injection hI2 with hI2
    subst hI2
    have hleft : ∀ i, i < c.st.M.length → c1.st.M[i]? =
        (setInstruction c.st.M c.FuncIt c.BBIT c.IIT
          (.call (ReplaceFunctionCall ci c.st.M.length)))[i]? := by
      intro i hi
      rw [hM, List.getElem?_append_left (by simpa [length_setInstruction] using hi)]
    refine ⟨?_, ?_, ?_, ?_, by rw [hM]; simp [length_setInstruction]⟩
    · intro hne
      rw [hleft g hglt, getElem?_setInstruction_ne _ _ _ _ _ _ hne, hG]
    · intro heq
      rw [hleft g hglt, heq, getElem?_setInstruction_same _ _ _ _ _ G (by rw [← heq]; exact hG)]
      rfl
    · intro b i hne
      rw [hM, getInstruction_append_left _ _ _ _ _ (by simpa [length_setInstruction] using hglt),
        getInstruction_setInstruction_ne _ _ _ _ _ _ _ _ hne]
    · intro i hi hne
      rw [hleft i hi, getElem?_setInstruction_ne _ _ _ _ _ _ hne]

/-- The first call site of `exMain`, whose target `exF` is another function, and the call
site of `exRec`, which is inside its own target. -/
theorem C14_original_not_mutated_witness :
    getInstruction exConfig.st.M exConfig.FuncIt exConfig.BBIT exConfig.IIT =
        some (.call { callee := .func 0, args := [.constInt 32 5, .arg 0] }) ∧
    getCalledFunction { callee := .func 0, args := [.constInt 32 5, .arg 0] } = some 0 ∧
    exConfig.st.M[0]? = some exF ∧
    NeedsToBeCloned exConfig.st.clonedFunctions
        { callee := .func 0, args := [.constInt 32 5, .arg 0] } (some 0) = true ∧
    driverStep exConfig = .next exConfigNext ∧
    0 ≠ exConfig.FuncIt ∧ exConfigNext.st.M[0]? = some exF ∧
    driverStep (initial exRec) = .next exRecNext ∧
    exRecNext.st.M[0]? = some exRecGRetargeted :=
  ⟨by decide, by decide, by decide, by decide, by decide, by decide,
    (C14_original_not_mutated exConfig exConfigNext
      { callee := .func 0, args := [.constInt 32 5, .arg 0] } 0 exF
      (by decide) (by decide) (by decide) (by decide) (by decide)).1 (by decide),
    by decide,
    (C14_original_not_mutated (initial exRec) exRecNext
      { callee := .func 0, args := [.constInt 32 1] } 0 exRecG
      (by decide) (by decide) (by decide) (by decide) (by decide)).2.1 (by decide)⟩

/-! ## C16: appended functions, registry and counters -/

theorem quiet_of_no_constant (M : Module) (h1 : noConstantArgument M) (h2 : directCalls M)
    (F : Function) (hF : F ∈ M) (BB : BasicBlock) (hBB : BB ∈ F.blocks) (I : Instruction)
    (hI : I ∈ BB) : quiet M [] I = true := by
  cases I with
  | other op ops => rfl
  | call ci =>
    obtain ⟨g, hg, hlt⟩ := h2 F hF BB hBB ci hI
    have hN : NeedsToBeCloned [] ci (some g) = false := by
      cases h : NeedsToBeCloned [] ci (some g) with
      | false => rfl
      | true =>
        obtain ⟨⟨v, hv, w, c, hc⟩, -⟩ := (NeedsToBeCloned.loop_iff [] g ci.args).1 h
        exact absurd hc (h1 F hF BB hBB ci hI v hv w c)
    simp [quiet, hg, hlt, hN]

/-- On a module whose calls are all direct and pass no integer constant, the driver passes
over the last `k` functions without changing function list, registry or counters. -/
theorem stepsFrom_pass_over (M : Module) (h1 : noConstantArgument M) (h2 : directCalls M)
    (k : Nat) : ∀ st : PassState, st.same (initial M).st → k ≤ M.length →
    ∃ n st2, stepsFrom n ⟨st, M.length - k, 0, 0⟩ = some ⟨st2, M.length, 0, 0⟩ ∧
      st2.same (initial M).st := by
  induction k with
  | zero => exact fun st hs _ => ⟨0, st, rfl, hs⟩
  | succ k ih =>
    intro st hs hk
    have hM : st.M = M := hs.1
    have hR : st.clonedFunctions = [] := hs.2.1
    have hfi : M.length - (k + 1) < M.length := by omega
    have hF : st.M[M.length - (k + 1)]? = some M[M.length - (k + 1)] := by
      rw [hM]
      exact List.getElem?_eq_getElem hfi
    obtain ⟨n1, st1, hs1, hsame1⟩ := stepsFrom_quiet_rest st (M.length - (k + 1)) 0 _ hF
      (Nat.zero_le _) (by
        intro b i I hI _
        obtain ⟨BB, -, -, -, hBB, hIB⟩ := getInstruction_some hF hI
        rw [hM, hR]
        exact quiet_of_no_constant M h1 h2 _ (List.getElem_mem hfi) BB hBB I hIB)
    obtain ⟨n2, st2, hs2, hsame2⟩ := ih st1 (PassState.same_trans hsame1 hs) (by omega)
    rw [show M.length - (k + 1) + 1 = M.length - k by omega] at hs1
    exact ⟨n1 + n2, st2, stepsFrom_trans hs1 hs2, hsame2⟩

/-- On a module whose calls are all direct and none of which passes an integer constant,
the run ends and is the identity: function list as in the input, registry and counter map
empty. -/
theorem runOnModule_identity (M : Module) (h1 : noConstantArgument M) (h2 : directCalls M) :
    ∃ (fuel : Nat) (st : PassState), runOnModule fuel M = .finished false st ∧
      st.M = M ∧ st.clonedFunctions = [] ∧ st.functionMappings = [] := by
  obtain ⟨n, st, hs, hsame⟩ := stepsFrom_pass_over M h1 h2 M.length (initial M).st
    (PassState.same_refl _) (Nat.le_refl _)
  rw [Nat.sub_self] at hs
  refine ⟨n + 1, st, ?_, hsame.1, hsame.2.1, hsame.2.2⟩
  have hdone : runFrom 1 ⟨st, M.length, 0, 0⟩ = .finished false st :=
    runFrom_done (c := ⟨st, M.length, 0, 0⟩)
      (by rw [hsame.1]; exact List.getElem?_eq_none (Nat.le_refl _))
  exact (runFrom_of_stepsFrom hs 1).trans hdone

theorem noConstantArgument_exIndirectPlain : noConstantArgument exIndirectPlain := by
  intro F hF BB hBB ci hci v hv w c
  simp only [exIndirectPlain, List.mem_singleton] at hF
  subst hF
  simp only [List.mem_singleton] at hBB
  subst hBB
  simp only [List.mem_cons, Instruction.call.injEq, List.mem_singleton, List.not_mem_nil,
    or_false, reduceCtorEq] at hci
  subst hci
  simp only [List.mem_singleton] at hv
  subst hv
  simp

/-- C11 fails on the code: no call of `exIndirectPlain` has an integer-constant argument
and the policy answers false at its only call site, yet the run is not the identity: the
call has no direct target, and the driver dereferences the null target when it prints its
name, so the run faults at its first step, whatever the bound on the steps. -/
theorem C11_run_without_constants_faults :
    noConstantArgument exIndirectPlain ∧
    NeedsToBeCloned [] { callee := .arg 0, args := [.arg 1] }
      (getCalledFunction { callee := .arg 0, args := [.arg 1] }) = false ∧
    ∀ fuel : Nat, runOnModule (fuel + 1) exIndirectPlain = .fault .nullFunction :=
  ⟨noConstantArgument_exIndirectPlain, by decide, fun _ => rfl⟩

theorem exPlain_calls (F : Function) (hF : F ∈ exPlain) (BB : BasicBlock) (hBB : BB ∈ F.blocks)
    (ci : CallInst) (hci : Instruction.call ci ∈ BB) :
    ci = { callee := .func 0, args := [.arg 0, .arg 1] } := by
  simp only [exPlain, List.mem_cons, List.mem_singleton, List.not_mem_nil, or_false] at hF
  rcases hF with rfl | rfl
  · simp only [exF, List.mem_singleton] at hBB
    subst hBB
    simp at hci
  · simp only [List.mem_singleton] at hBB
    subst hBB
    simpa using hci

/-- The scenario of a single call site `f(x, y)`, `x` and `y` not constants: the run on
`exPlain` ends and changes nothing. -/
theorem runOnModule_identity_exPlain :
    ∃ (fuel : Nat) (st : PassState), runOnModule fuel exPlain = .finished false st ∧
      st.M = exPlain ∧ st.clonedFunctions = [] ∧ st.functionMappings = [] := by
  refine runOnModule_identity exPlain ?_ ?_
  · intro F hF BB hBB ci hci v hv w c
    rw [exPlain_calls F hF BB hBB ci hci] at hv
    simp only [List.mem_cons, List.mem_singleton, List.not_mem_nil, or_false] at hv
    rcases hv with rfl | rfl <;> simp
  · intro F hF BB hBB ci hci
    rw [exPlain_calls F hF BB hBB ci hci]
    exact ⟨0, rfl, by decide⟩

/-! ## C6: names of the appended functions -/

theorem NamesInv.initial (M0 : Module) (hnd : (names M0).Nodup) : NamesInv M0 M0 [] [] where
  grows := Nat.le_refl _
  split := ⟨[], by simp, by simp, fun G _ k hk hkc => by
    simp only [counterOf, mapFind, Option.getD_none] at hkc
    omega⟩
  registered := fun i h1 h2 => absurd h2 (by omega)
  nodup := hnd
  nonneg := fun s => by simp [counterOf, mapFind]
  upper := fun s => by simp [counterOf, mapFind]

end FunctionArgumentTransformer
